import Mathlib

/-!
Shallow embedding of the rendering-order, layout and axis subsystem of the
vendored charting engine (src/lib/qcustomplot.cpp), together with proofs of
the spec's testable properties.

Modelling conventions:
* C++ `double` values are modelled as exact rationals (`ℚ`), except for the
  axis coordinate transform where the logarithm/power functions force the
  real numbers (`ℝ`).
* Qt integer types (`int`, `QRect`, `QMargins`) are modelled as `ℤ`.
* `QVector` inputs are Lean lists; vector cells written inside loops are
  modelled as functions `ℕ → ℚ` updated with `Function.update`.
* Stateful methods become pure functions from the old record to the new one.
-/

namespace QCP

/-- Numeric interval of an axis, `QCPRange` (qcustomplot.cpp line 1283 ff.).
Field order and names follow the source. -/
structure QCPRange where
  lower : ℚ
  upper : ℚ
deriving DecidableEq

/-- Constant `QCPRange::maxRange` = 1e250. -/
def maxRange : ℚ := 10 ^ 250

/-- Constant `QCPRange::minRange` = 1e-280. -/
def minRange : ℚ := 1 / 10 ^ 280

/-- Static `QCPRange::validRange(double lower, double upper)`
(qcustomplot.cpp lines 1439-1452): the active (non-commented) return
expression. -/
def validRange (lower upper : ℚ) : Bool :=
  decide (lower > -maxRange) && decide (upper < maxRange) &&
    decide (|lower - upper| > minRange) && decide (|lower - upper| < maxRange)

/-- Overload `QCPRange::validRange(const QCPRange &range)`
(qcustomplot.cpp lines 1463-1477); same body applied to the fields. -/
def validRangeR (range : QCPRange) : Bool :=
  decide (range.lower > -maxRange) && decide (range.upper < maxRange) &&
    decide (|range.lower - range.upper| > minRange) &&
    decide (|range.lower - range.upper| < maxRange)

/-- Method `QCPRange::normalize()`: swaps the bounds when `lower > upper`. -/
def QCPRange.normalize (r : QCPRange) : QCPRange :=
  if r.lower > r.upper then ⟨r.upper, r.lower⟩ else r

/-- Method `QCPRange::size()`: `upper - lower`. -/
def QCPRange.size (r : QCPRange) : ℚ := r.upper - r.lower

/-- Method `QCPRange::sanitizedForLogScale()` (qcustomplot.cpp lines
1367-1410): normalizes, then moves a zero or zero-crossing bound into the
wider sign domain using `rangeFac = 1e-3`. -/
def QCPRange.sanitizedForLogScale (r : QCPRange) : QCPRange :=
  let rangeFac : ℚ := 1 / 1000
  let s := r.normalize
  if s.lower = 0 ∧ s.upper ≠ 0 then
    { s with lower := if rangeFac < s.upper * rangeFac then rangeFac else s.upper * rangeFac }
  else if s.lower ≠ 0 ∧ s.upper = 0 then
    { s with upper := if -rangeFac > s.lower * rangeFac then -rangeFac else s.lower * rangeFac }
  else if s.lower < 0 ∧ s.upper > 0 then
    if -s.lower > s.upper then
      { s with upper := if -rangeFac > s.lower * rangeFac then -rangeFac else s.lower * rangeFac }
    else
      { s with lower := if rangeFac < s.upper * rangeFac then rangeFac else s.upper * rangeFac }
  else s

/-- Method `QCPRange::sanitizedForLinScale()`: just normalizes. -/
def QCPRange.sanitizedForLinScale (r : QCPRange) : QCPRange :=
  r.normalize

/-- Enum `QCPAxis::ScaleType`. -/
inductive ScaleType where
  | stLinear
  | stLogarithmic
deriving DecidableEq

/-- The part of the `QCPAxis` state read and written by `QCPAxis::setRange`:
the scale type, the stored range and the cached-margin validity flag. -/
structure AxisRangeState where
  mScaleType : ScaleType
  mRange : QCPRange
  mCachedMarginValid : Bool
deriving DecidableEq

/-- Method `QCPAxis::setRange(const QCPRange &range)` (qcustomplot.cpp lines
4208-4225): no-op on bit-identical bounds, rejection on `!validRange`,
otherwise the range is sanitized for the current scale type and stored and
the cached margin is invalidated.  The emitted signals carry no state. -/
def setRange (st : AxisRangeState) (range : QCPRange) : AxisRangeState :=
  if range.lower = st.mRange.lower ∧ range.upper = st.mRange.upper then st
  else if validRangeR range = false then st
  else
    { st with
      mRange :=
        match st.mScaleType with
        | .stLogarithmic => range.sanitizedForLogScale
        | .stLinear => range.sanitizedForLinScale
      mCachedMarginValid := false }

/-- Qt `QRect`: stored as the two corner points `(x1,y1)`, `(x2,y2)`, with
`width = x2 - x1 + 1` and `height = y2 - y1 + 1`; no normalization is
performed by arithmetic on it, so width and height may be negative. -/
structure QRect where
  x1 : ℤ
  y1 : ℤ
  x2 : ℤ
  y2 : ℤ
deriving DecidableEq

/-- Constructor `QRect(x, y, w, h)`. -/
def QRect.mk4 (x y w h : ℤ) : QRect :=
  ⟨x, y, x + w - 1, y + h - 1⟩

def QRect.left (r : QRect) : ℤ := r.x1

def QRect.top (r : QRect) : ℤ := r.y1

def QRect.right (r : QRect) : ℤ := r.x2

def QRect.bottom (r : QRect) : ℤ := r.y2

def QRect.width (r : QRect) : ℤ := r.x2 - r.x1 + 1

def QRect.height (r : QRect) : ℤ := r.y2 - r.y1 + 1

/-- Qt `QRect::adjusted(dx1, dy1, dx2, dy2)`: translates the two corners
independently, with no clamping. -/
def QRect.adjusted (r : QRect) (dx1 dy1 dx2 dy2 : ℤ) : QRect :=
  ⟨r.x1 + dx1, r.y1 + dy1, r.x2 + dx2, r.y2 + dy2⟩

/-- Qt `QMargins`. -/
structure QMargins where
  left : ℤ
  top : ℤ
  right : ℤ
  bottom : ℤ
deriving DecidableEq

/-- The part of the `QCPLayoutElement` state read and written by
`setOuterRect` and `setMargins`. -/
structure LayoutElementState where
  mOuterRect : QRect
  mRect : QRect
  mMargins : QMargins
deriving DecidableEq

/-- The rect fields of a freshly constructed `QCPLayoutElement`
(qcustomplot.cpp lines 1826-1837): `mRect(0,0,0,0)`, `mOuterRect(0,0,0,0)`,
`mMargins(0,0,0,0)`. -/
def layoutElementInit : LayoutElementState :=
  { mOuterRect := QRect.mk4 0 0 0 0
    mRect := QRect.mk4 0 0 0 0
    mMargins := ⟨0, 0, 0, 0⟩ }

/-- Method `QCPLayoutElement::setOuterRect` (qcustomplot.cpp lines
1858-1865): on change, stores the rect and recomputes `mRect` via
`adjusted(+left, +top, -right, -bottom)`. -/
def setOuterRect (st : LayoutElementState) (rect : QRect) : LayoutElementState :=
  if st.mOuterRect ≠ rect then
    { st with
      mOuterRect := rect
      mRect := rect.adjusted st.mMargins.left st.mMargins.top
        (-st.mMargins.right) (-st.mMargins.bottom) }
  else st

/-- Method `QCPLayoutElement::setMargins` (qcustomplot.cpp lines 1878-1885):
on change, stores the margins and recomputes `mRect` the same way. -/
def setMargins (st : LayoutElementState) (margins : QMargins) : LayoutElementState :=
  if st.mMargins ≠ margins then
    { st with
      mMargins := margins
      mRect := st.mOuterRect.adjusted margins.left margins.top
        (-margins.right) (-margins.bottom) }
  else st

/-- An arbitrary interleaving of the two mutators of the rect/margin state. -/
inductive LayoutElementOp where
  | outer (rect : QRect)
  | margins (m : QMargins)

/-- Runs a sequence of `setOuterRect`/`setMargins` calls. -/
def applyLayoutOps (st : LayoutElementState) (ops : List LayoutElementOp) : LayoutElementState :=
  ops.foldl
    (fun s op =>
      match op with
      | .outer r => setOuterRect s r
      | .margins m => setMargins s m)
    st

/-- The inner rect determined by an outer rect and margins, exactly as both
mutators compute it (`adjusted(+left, +top, -right, -bottom)`). -/
def shrunkByMargins (outer : QRect) (m : QMargins) : QRect :=
  outer.adjusted m.left m.top (-m.right) (-m.bottom)

/-- A `QCPLayerable` restricted to the fields that `realVisibility` reads:
the own `mVisible` flag and the `mParentLayerable` chain.  The inductive
representation makes the parent chain finite and acyclic, which is the
claim's hypothesis. -/
inductive LayerableV where
  | mk (mVisible : Bool) (mParentLayerable : Option LayerableV)

/-- Own visibility flag of a layerable. -/
def LayerableV.mVisible : LayerableV → Bool
  | .mk v _ => v

/-- Method `QCPLayerable::realVisibility()` (qcustomplot.cpp lines
1001-1004): `mVisible && (!mParentLayerable || mParentLayerable->realVisibility())`. -/
def realVisibility : LayerableV → Bool
  | .mk v none => v && true
  | .mk v (some parent) => v && realVisibility parent

/-- The ancestor chain of a layerable (the parent, then its parent, ...). -/
def ancestors : LayerableV → List LayerableV
  | .mk _ none => []
  | .mk _ (some parent) => parent :: ancestors parent

end QCP

namespace QCP

theorem normalize_le (r : QCPRange) : (r.normalize).lower ≤ (r.normalize).upper := by
  unfold QCPRange.normalize
  split_ifs with h
  · exact le_of_lt h
  · exact le_of_not_lt h

/-- Helper for claim C5: the log-scale sanitizer never returns a range whose
interior spans zero. -/
theorem sanitizedForLogScale_not_span (r : QCPRange) :
    ¬((r.sanitizedForLogScale).lower < 0 ∧ 0 < (r.sanitizedForLogScale).upper) := by
  have hle := normalize_le r
  unfold QCPRange.sanitizedForLogScale
  dsimp only
  set s := r.normalize with hs
  rintro ⟨hl, hu⟩
  by_cases hA : s.lower = 0 ∧ s.upper ≠ 0
  · have hup : 0 < s.upper := lt_of_le_of_ne (hA.1 ▸ hle) (Ne.symm hA.2)
    rw [if_pos hA] at hl
    dsimp only at hl
    split_ifs at hl
    · norm_num at hl
    · nlinarith
  by_cases hB : s.lower ≠ 0 ∧ s.upper = 0
  · have hlo : s.lower < 0 := lt_of_le_of_ne (hB.2 ▸ hle) hB.1
    rw [if_neg hA, if_pos hB] at hu
    dsimp only at hu
    split_ifs at hu
    · norm_num at hu
    · nlinarith
  by_cases hC : s.lower < 0 ∧ s.upper > 0
  · rw [if_neg hA, if_neg hB, if_pos hC] at hl hu
    by_cases hD : -s.lower > s.upper
    · rw [if_pos hD] at hu
      dsimp only at hu
      split_ifs at hu
      · norm_num at hu
      · nlinarith [hC.1]
    · rw [if_neg hD] at hl
      dsimp only at hl
      split_ifs at hl
      · norm_num at hl
      · nlinarith [hC.2]
  · rw [if_neg hA, if_neg hB, if_neg hC] at hl hu
    exact hC ⟨hl, hu⟩

/-- Claim C6, counterexample: `validRange(1.5e250, 9e249)` returns true even
though the lower bound's absolute value exceeds `maxRange = 1e250`, so the
claim that `validRange` is false whenever either bound exceeds `±1e250` is
wrong as stated. -/
theorem validRange_magnitude_cex :
    validRange (15 * 10 ^ 249) (9 * 10 ^ 249) = true ∧
      maxRange < |(15 * 10 ^ 249 : ℚ)| := by
  have hd : |(15 * 10 ^ 249 : ℚ) - 9 * 10 ^ 249| = 6 * 10 ^ 249 := by
    rw [show (15 * 10 ^ 249 : ℚ) - 9 * 10 ^ 249 = 6 * 10 ^ 249 by ring]
    exact abs_of_pos (by positivity)
  constructor
  · simp only [validRange, hd, Bool.and_eq_true, decide_eq_true_eq]
    unfold maxRange minRange
    norm_num
  · rw [abs_of_pos (by positivity)]
    unfold maxRange
    norm_num

/-- Claim C6, amended: `validRange` is false whenever `|upper - lower|` is at
most `1e-280` or at least `1e250`, or `lower ≤ -1e250`, or `upper ≥ 1e250`
(the bound checks are one-sided: `lower > -maxRange` and `upper < maxRange`). -/
theorem validRange_false_outside (l u : ℚ)
    (h : |u - l| ≤ minRange ∨ maxRange ≤ |u - l| ∨ l ≤ -maxRange ∨ maxRange ≤ u) :
    validRange l u = false := by
  have habs : |l - u| = |u - l| := abs_sub_comm l u
  rcases h with h | h | h | h
  · have hn : ¬(minRange < |l - u|) := by rw [habs]; exact not_lt.mpr h
    simp [validRange, hn]
  · have hn : ¬(|l - u| < maxRange) := by rw [habs]; exact not_lt.mpr h
    simp [validRange, hn]
  · have hn : ¬(-maxRange < l) := not_lt.mpr h
    simp [validRange, hn]
  · have hn : ¬(u < maxRange) := not_lt.mpr h
    simp [validRange, hn]

/-- Witness for `validRange_false_outside` at the degenerate range `(0, 0)`. -/
theorem validRange_false_outside_w :
    (|(0 : ℚ) - 0| ≤ minRange ∨ maxRange ≤ |(0 : ℚ) - 0| ∨ (0 : ℚ) ≤ -maxRange ∨
        maxRange ≤ (0 : ℚ)) ∧
      validRange 0 0 = false :=
  ⟨Or.inl (by norm_num [minRange]),
   validRange_false_outside 0 0 (Or.inl (by norm_num [minRange]))⟩

/-- Claim C5, counterexample: on a logarithmic axis holding range `(1, 10)`,
`setRange` with the zero-spanning range `(-1, 2)` is not rejected: the stored
range becomes the sanitized `(0.001, 2)`, not the old `(1, 10)`. -/
theorem validRangeR_span_example : validRangeR ⟨-1, 2⟩ = true := by
  have h3 : |(-1 : ℚ) - 2| = 3 := by
    rw [abs_of_nonpos (by norm_num)]
    norm_num
  simp only [validRangeR, h3, Bool.and_eq_true, decide_eq_true_eq]
  unfold maxRange minRange
  norm_num

theorem sanitize_span_example :
    (⟨-1, 2⟩ : QCPRange).sanitizedForLogScale = ⟨1 / 1000, 2⟩ := by
  have hnorm : (⟨-1, 2⟩ : QCPRange).normalize = ⟨-1, 2⟩ := by
    unfold QCPRange.normalize
    rw [if_neg (by norm_num)]
  unfold QCPRange.sanitizedForLogScale
  dsimp only
  rw [hnorm]
  rw [if_neg (by simp), if_neg (by simp), if_pos (by norm_num), if_neg (by norm_num),
    if_pos (by norm_num)]

theorem setRange_log_span_cex :
    ((-1 : ℚ) < 0 ∧ (0 : ℚ) < 2) ∧
      (setRange ⟨.stLogarithmic, ⟨1, 10⟩, true⟩ ⟨-1, 2⟩).mRange = ⟨1 / 1000, 2⟩ ∧
      ((⟨1 / 1000, 2⟩ : QCPRange) ≠ ⟨1, 10⟩) := by
  refine ⟨by norm_num, ?_, ?_⟩
  · unfold setRange
    rw [if_neg (by rintro ⟨h, -⟩; norm_num at h),
      if_neg (by rw [validRangeR_span_example]; simp)]
    simpa using sanitize_span_example
  · intro h
    have hlow := congrArg QCPRange.lower h
    norm_num at hlow

/-- Claim C5, amended: on a logarithmic axis, `setRange` retains the old
range only when `validRange` fails (or the bounds are bit-identical); a
zero-spanning range that passes `validRange` is instead sanitized for log
scale — the stored range is `sanitizedForLogScale(range)`, which never spans
zero. -/
theorem setRange_log_behavior (st : AxisRangeState) (range : QCPRange)
    (hlog : st.mScaleType = .stLogarithmic) :
    (validRangeR range = false → setRange st range = st) ∧
    (validRangeR range = true →
      ¬(range.lower = st.mRange.lower ∧ range.upper = st.mRange.upper) →
      (setRange st range).mRange = range.sanitizedForLogScale ∧
        ¬((setRange st range).mRange.lower < 0 ∧ 0 < (setRange st range).mRange.upper)) := by
  constructor
  · intro hv
    unfold setRange
    split_ifs <;> simp_all
  · intro hv hne
    have hstep : (setRange st range).mRange = range.sanitizedForLogScale := by
      unfold setRange
      rw [if_neg hne, if_neg (by simp [hv])]
      simp only [hlog]
    exact ⟨hstep, by rw [hstep]; exact sanitizedForLogScale_not_span range⟩

/-- Witness for `setRange_log_behavior` on a concrete logarithmic axis. -/
theorem setRange_log_behavior_w :
    (validRangeR ⟨-1, 2⟩ = true →
      ¬((⟨-1, 2⟩ : QCPRange).lower = (⟨1, 10⟩ : QCPRange).lower ∧
          (⟨-1, 2⟩ : QCPRange).upper = (⟨1, 10⟩ : QCPRange).upper) →
      (setRange ⟨.stLogarithmic, ⟨1, 10⟩, true⟩ ⟨-1, 2⟩).mRange =
          (⟨-1, 2⟩ : QCPRange).sanitizedForLogScale ∧
        ¬((setRange ⟨.stLogarithmic, ⟨1, 10⟩, true⟩ ⟨-1, 2⟩).mRange.lower < 0 ∧
            0 < (setRange ⟨.stLogarithmic, ⟨1, 10⟩, true⟩ ⟨-1, 2⟩).mRange.upper)) ∧
      validRangeR ⟨-1, 2⟩ = true :=
  ⟨(setRange_log_behavior ⟨.stLogarithmic, ⟨1, 10⟩, true⟩ ⟨-1, 2⟩ rfl).2,
    validRangeR_span_example⟩

/-- Claim C8, counterexample: after `setOuterRect(QRect(0,0,10,10))` and
`setMargins({20,0,0,0})` the stored inner rect has negative width, so the
inner rect is not clamped to non-negative extent. -/
theorem innerRect_negative_cex :
    ((setMargins (setOuterRect layoutElementInit (QRect.mk4 0 0 10 10))
        ⟨20, 0, 0, 0⟩).mRect).width = -10 := by
  decide

theorem setOuterRect_preserves (st : LayoutElementState) (r : QRect)
    (h : st.mRect = shrunkByMargins st.mOuterRect st.mMargins) :
    (setOuterRect st r).mRect =
      shrunkByMargins (setOuterRect st r).mOuterRect (setOuterRect st r).mMargins := by
  unfold setOuterRect
  split_ifs with hc
  · rfl
  · exact h

theorem setMargins_preserves (st : LayoutElementState) (m : QMargins)
    (h : st.mRect = shrunkByMargins st.mOuterRect st.mMargins) :
    (setMargins st m).mRect =
      shrunkByMargins (setMargins st m).mOuterRect (setMargins st m).mMargins := by
  unfold setMargins
  split_ifs with hc
  · rfl
  · exact h

/-- Claim C8, amended: after any sequence of `setOuterRect`/`setMargins`
calls, the inner rect equals the outer rect adjusted inward by the margins
(`adjusted(+left, +top, -right, -bottom)`), with no clamping: its width or
height is negative whenever the margins exceed the outer rect's extent. -/
theorem innerRect_invariant (st : LayoutElementState) (ops : List LayoutElementOp)
    (h : st.mRect = shrunkByMargins st.mOuterRect st.mMargins) :
    (applyLayoutOps st ops).mRect =
      shrunkByMargins (applyLayoutOps st ops).mOuterRect (applyLayoutOps st ops).mMargins := by
  induction ops generalizing st with
  | nil => exact h
  | cons op rest ih =>
    cases op with
    | outer r => exact ih _ (setOuterRect_preserves st r h)
    | margins m => exact ih _ (setMargins_preserves st m h)

/-- Witness for `innerRect_invariant` on the freshly constructed element and
a two-call sequence. -/
theorem innerRect_invariant_w :
    (layoutElementInit.mRect =
        shrunkByMargins layoutElementInit.mOuterRect layoutElementInit.mMargins) ∧
      (applyLayoutOps layoutElementInit
            [.outer (QRect.mk4 0 0 10 10), .margins ⟨20, 0, 0, 0⟩]).mRect =
        shrunkByMargins
          (applyLayoutOps layoutElementInit
            [.outer (QRect.mk4 0 0 10 10), .margins ⟨20, 0, 0, 0⟩]).mOuterRect
          (applyLayoutOps layoutElementInit
            [.outer (QRect.mk4 0 0 10 10), .margins ⟨20, 0, 0, 0⟩]).mMargins :=
  ⟨by decide, innerRect_invariant layoutElementInit _ (by decide)⟩

/-- Claim C7: `realVisibility` is true exactly when the layerable's own
`mVisible` flag and the `mVisible` flag of every ancestor in its parent
chain are all true; the function is a pure recursive AND. -/
theorem realVisibility_iff : ∀ l : LayerableV,
    (realVisibility l = true ↔
      (l.mVisible = true ∧ ∀ a ∈ ancestors l, a.mVisible = true))
  | .mk v none => by
      simp [realVisibility, ancestors, LayerableV.mVisible]
  | .mk v (some p) => by
      have ih := realVisibility_iff p
      simp only [realVisibility, ancestors, LayerableV.mVisible, Bool.and_eq_true, ih,
        List.mem_cons]
      constructor
      · rintro ⟨hv, hp, hall⟩
        exact ⟨hv, fun a ha => ha.elim (fun he => he ▸ hp) (hall a)⟩
      · rintro ⟨hv, hall⟩
        exact ⟨hv, hall p (Or.inl rfl), fun a ha => hall a (Or.inr ha)⟩

/-- Witness for `realVisibility_iff` on a concrete two-element chain. -/
theorem realVisibility_iff_w :
    realVisibility (.mk true (some (.mk false none))) = true ↔
      ((LayerableV.mk true (some (.mk false none))).mVisible = true ∧
        ∀ a ∈ ancestors (.mk true (some (.mk false none))), a.mVisible = true) :=
  realVisibility_iff (.mk true (some (.mk false none)))

/-- A `QCPLayer` restricted to the fields that `setLayer`/`moveToLayer`
touch: the layer's name, owning plot (`mParentPlot`, by id) and ordered
child list (`mChildren`, layerable ids); qcustomplot.cpp line 751 ff. -/
structure LayerObj where
  name : String
  mParentPlot : ℕ
  mChildren : List ℕ
deriving DecidableEq

/-- A `QCPLayerable` restricted to the fields `setLayer`/`moveToLayer`
touch: its identity, parent plot and current layer. -/
structure LayerableObj where
  id : ℕ
  mParentPlot : Option ℕ
  mLayer : Option ℕ
deriving DecidableEq

/-- All live layer objects, keyed by id (standing in for object identity of
`QCPLayer*` pointers). -/
structure LayerWorld where
  layers : List (ℕ × LayerObj)
deriving DecidableEq

/-- Dereferences a layer id. -/
def lookupLayer (w : LayerWorld) (lid : ℕ) : Option LayerObj :=
  (w.layers.find? (fun p => p.1 == lid)).map Prod.snd

/-- Accessor `QCPLayer::parentPlot()` behind a layer pointer; `none` only
for a dangling id, which has no C++ counterpart. -/
def layerParentPlot (w : LayerWorld) (lid : ℕ) : Option ℕ :=
  (lookupLayer w lid).map LayerObj.mParentPlot

/-- Rewrites one layer object in place. -/
def updateLayer (w : LayerWorld) (lid : ℕ) (f : LayerObj → LayerObj) : LayerWorld :=
  ⟨w.layers.map (fun p => if p.1 = lid then (p.1, f p.2) else p)⟩

/-- Method `QCPLayer::addChild(layerable, prepend)` (qcustomplot.cpp lines
786-796): prepends or appends unless the layerable is already a child
(duplicate add is a reported no-op). -/
def layerAddChild (L : LayerObj) (childId : ℕ) (prepend : Bool) : LayerObj :=
  if ¬(childId ∈ L.mChildren) then
    { L with mChildren := if prepend then childId :: L.mChildren else L.mChildren ++ [childId] }
  else L

/-- Method `QCPLayer::removeChild(layerable)` (qcustomplot.cpp lines
807-811): `mChildren.removeOne(layerable)`; removing a non-member is a
reported no-op. -/
def layerRemoveChild (L : LayerObj) (childId : ℕ) : LayerObj :=
  { L with mChildren := L.mChildren.erase childId }

/-- Method `QCPLayerable::moveToLayer(QCPLayer *layer, bool prepend)`
(qcustomplot.cpp lines 1104-1123): fails when a non-null target has no
parent plot on this side or lives in a different plot; otherwise removes
from the previous layer (if any), stores the new layer and, when non-null,
adds itself to it. -/
def moveToLayer (w : LayerWorld) (l : LayerableObj) (layer : Option ℕ) (prepend : Bool) :
    Bool × LayerWorld × LayerableObj :=
  match layer with
  | some t =>
    if l.mParentPlot = none then (false, w, l)
    else if layerParentPlot w t ≠ l.mParentPlot then (false, w, l)
    else
      let w1 := match l.mLayer with
        | some old => updateLayer w old (fun L => layerRemoveChild L l.id)
        | none => w
      (true, updateLayer w1 t (fun L => layerAddChild L l.id prepend), { l with mLayer := some t })
  | none =>
    let w1 := match l.mLayer with
      | some old => updateLayer w old (fun L => layerRemoveChild L l.id)
      | none => w
    (true, w1, { l with mLayer := none })

/-- Method `QCPLayerable::setLayer(QCPLayer *layer)` (qcustomplot.cpp lines
950-953): delegates to `moveToLayer(layer, false)`. -/
def setLayer (w : LayerWorld) (l : LayerableObj) (layer : Option ℕ) :
    Bool × LayerWorld × LayerableObj :=
  moveToLayer w l layer false

/-- Modelled from the spec: `QCustomPlot::layer(const QString &name)` is not
among the repository's source files (only its caller
`QCPLayerable::setLayer` is).  Per the spec a Layer is owned by the plot
surface and identified by name, so the lookup returns the first layer of
the given plot carrying the name, and none when the plot has no such
layer. -/
def plotLayerByName (w : LayerWorld) (plot : ℕ) (layerName : String) : Option ℕ :=
  (w.layers.find? (fun p => p.2.mParentPlot == plot && p.2.name == layerName)).map Prod.fst

/-- Overload `QCPLayerable::setLayer(const QString &layerName)`
(qcustomplot.cpp lines 960-975): fails without a parent plot; otherwise
looks the layer up by name in the parent plot and delegates, failing when
there is no such layer. -/
def setLayerByName (w : LayerWorld) (l : LayerableObj) (layerName : String) :
    Bool × LayerWorld × LayerableObj :=
  match l.mParentPlot with
  | none => (false, w, l)
  | some plot =>
    match plotLayerByName w plot layerName with
    | some t => setLayer w l (some t)
    | none => (false, w, l)

/-- Claim C9: both `setLayer` entry points report failure and leave the
world and the layerable unchanged when the target layer lives in a
different plot (or behind an invalid id), when the layerable has no parent
plot, or when no layer of the parent plot carries the requested name. -/
theorem setLayer_invalid_target_no_mutation :
    (∀ (w : LayerWorld) (l : LayerableObj) (t : ℕ) (prepend : Bool),
      (l.mParentPlot = none ∨ layerParentPlot w t ≠ l.mParentPlot) →
      moveToLayer w l (some t) prepend = (false, w, l)) ∧
    (∀ (w : LayerWorld) (l : LayerableObj) (layerName : String) (plot : ℕ),
      l.mParentPlot = some plot → plotLayerByName w plot layerName = none →
      setLayerByName w l layerName = (false, w, l)) := by
  constructor
  · intro w l t prepend h
    unfold moveToLayer
    dsimp only
    rcases h with h | h
    · rw [if_pos h]
    · by_cases hp : l.mParentPlot = none
      · rw [if_pos hp]
      · rw [if_neg hp, if_pos h]
  · intro w l layerName plot hp hn
    unfold setLayerByName
    rw [hp]
    dsimp only
    rw [hn]

/-- Witness for `setLayer_invalid_target_no_mutation`: a layerable of plot 0
cannot move to a layer of plot 1, and a lookup for an absent layer name
fails. -/
theorem setLayer_invalid_target_no_mutation_w :
    moveToLayer ⟨[(1, ⟨"main", 1, []⟩)]⟩ ⟨7, some 0, none⟩ (some 1) false =
        (false, ⟨[(1, ⟨"main", 1, []⟩)]⟩, ⟨7, some 0, none⟩) ∧
      setLayerByName ⟨[(1, ⟨"main", 1, []⟩)]⟩ ⟨7, some 0, none⟩ "grid" =
        (false, ⟨[(1, ⟨"main", 1, []⟩)]⟩, ⟨7, some 0, none⟩) :=
  ⟨setLayer_invalid_target_no_mutation.1 ⟨[(1, ⟨"main", 1, []⟩)]⟩ ⟨7, some 0, none⟩ 1 false
      (Or.inr (by decide)),
    setLayer_invalid_target_no_mutation.2 ⟨[(1, ⟨"main", 1, []⟩)]⟩ ⟨7, some 0, none⟩ "grid" 0
      rfl (by decide)⟩

/-- Claim C10: moving to a null layer succeeds: it returns true, clears the
stored layer, and removes the layerable from its previous layer's child
list, leaving it in no layer's child list at all.  The hypotheses say the
world is well formed: the layerable appears only in its own layer's child
list, and child lists hold no duplicates. -/
theorem moveToLayer_null_detaches (w : LayerWorld) (l : LayerableObj) (prepend : Bool)
    (hmem : ∀ lid L, (lid, L) ∈ w.layers → l.id ∈ L.mChildren → l.mLayer = some lid)
    (hnodup : ∀ lid L, (lid, L) ∈ w.layers → L.mChildren.Nodup) :
    (moveToLayer w l none prepend).1 = true ∧
      (moveToLayer w l none prepend).2.2.mLayer = none ∧
      ∀ lid L, (lid, L) ∈ (moveToLayer w l none prepend).2.1.layers →
        l.id ∉ L.mChildren := by
  refine ⟨rfl, rfl, ?_⟩
  intro lid L hL hbad
  unfold moveToLayer at hL
  dsimp only at hL
  cases hol : l.mLayer with
  | none =>
    rw [hol] at hL
    exact Option.noConfusion (hol ▸ hmem lid L hL hbad)
  | some old =>
    rw [hol] at hL
    unfold updateLayer at hL
    simp only [List.mem_map] at hL
    obtain ⟨⟨lid0, L0⟩, hmem0, heq⟩ := hL
    by_cases he : lid0 = old
    · rw [if_pos he] at heq
      cases heq
      unfold layerRemoveChild at hbad
      dsimp only at hbad
      exact absurd (((hnodup lid0 L0 hmem0).mem_erase_iff.mp hbad).1) (by simp)
    · rw [if_neg he] at heq
      cases heq
      have hsome := hmem lid L hmem0 hbad
      rw [hol] at hsome
      injection hsome with hsome
      exact he hsome.symm

/-- Witness for `moveToLayer_null_detaches`: detaching the sole child of
layer 3. -/
theorem moveToLayer_null_detaches_w :
    (moveToLayer ⟨[(3, ⟨"main", 0, [7]⟩)]⟩ ⟨7, some 0, some 3⟩ none false).1 = true ∧
      (moveToLayer ⟨[(3, ⟨"main", 0, [7]⟩)]⟩ ⟨7, some 0, some 3⟩ none false).2.2.mLayer = none ∧
      (7 : ℕ) ∉ (LayerObj.mk "main" 0 []).mChildren := by
  have hm : ∀ lid L, (lid, L) ∈ (⟨[(3, ⟨"main", 0, [7]⟩)]⟩ : LayerWorld).layers →
      (7 : ℕ) ∈ L.mChildren → (LayerableObj.mk 7 (some 0) (some 3)).mLayer = some lid := by
    intro lid L h _
    simp only [List.mem_singleton, Prod.mk.injEq] at h
    rw [h.1]
  have hn : ∀ lid L, (lid, L) ∈ (⟨[(3, ⟨"main", 0, [7]⟩)]⟩ : LayerWorld).layers →
      L.mChildren.Nodup := by
    intro lid L h
    simp only [List.mem_singleton, Prod.mk.injEq] at h
    rw [h.2]
    decide
  have hthm := moveToLayer_null_detaches ⟨[(3, ⟨"main", 0, [7]⟩)]⟩ ⟨7, some 0, some 3⟩ false hm hn
  exact ⟨hthm.1, hthm.2.1, hthm.2.2 3 (LayerObj.mk "main" 0 []) (by decide)⟩

/-- C-style cast of a floating-point value to `int`: truncation toward
zero. -/
def cIntTrunc (x : ℚ) : ℤ := if 0 ≤ x then ⌊x⌋ else ⌈x⌉

/-- The automatic tick-step selection inside `QCPAxis::generateAutoTicks`
(qcustomplot.cpp lines 5578-5591), as a function of the positive raw step
`mRange.size()/(mAutoTickCount+1e-10)`: extract the magnitude factor
`qPow(10, qFloor(qLn(step)/qLn(10)))` — over exact arithmetic this exponent
is `Int.log 10 step` — and the mantissa `step/factor`; when the mantissa is
below 5 compute `(int)(mantissa*2)/2.0*factor`, otherwise
`(int)(mantissa/2.0)*2.0*factor`. -/
def autoTickStep (rawStep : ℚ) : ℚ :=
  let magnitudeFactor : ℚ := (10 : ℚ) ^ Int.log 10 rawStep
  let tickStepMantissa : ℚ := rawStep / magnitudeFactor
  if tickStepMantissa < 5 then
    (cIntTrunc (tickStepMantissa * 2) : ℚ) / 2 * magnitudeFactor
  else
    (cIntTrunc (tickStepMantissa / 2) : ℚ) * 2 * magnitudeFactor

/-- Claim C4, counterexample: for the raw step 1.9 (magnitude factor 1,
mantissa 1.9) the code returns 1.5, but 2 is a multiple of 0.5 strictly
closer to the mantissa, so the mantissa is not rounded to the nearest
multiple of 0.5. -/
theorem autoTickStep_not_nearest_cex :
    autoTickStep (19 / 10) = 3 / 2 ∧
      (2 : ℚ) = ((4 : ℤ) : ℚ) * (1 / 2) ∧
      |(2 : ℚ) - 19 / 10| < |(3 : ℚ) / 2 - 19 / 10| := by
  refine ⟨?_, by norm_num, ?_⟩
  · have hlog : Int.log 10 (19 / 10 : ℚ) = 0 := by
      rw [Int.log_of_one_le_right 10 (by norm_num)]
      rw [show ⌊(19 / 10 : ℚ)⌋₊ = 1 from by rw [Nat.floor_eq_iff (by norm_num)]; norm_num,
        Nat.log_one_right]
      norm_num
    unfold autoTickStep
    dsimp only
    rw [hlog]
    norm_num [cIntTrunc]
  · rw [show (2 : ℚ) - 19 / 10 = 1 / 10 by norm_num,
      show (3 : ℚ) / 2 - 19 / 10 = -(4 / 10) by norm_num,
      abs_of_pos (by norm_num), abs_neg, abs_of_pos (by norm_num)]
    norm_num

/-- Claim C4, amended: the final tickStep is the magnitude factor times the
mantissa rounded DOWN (truncated): to the greatest multiple of 0.5 at or
below the mantissa when the mantissa is below 5 (the mantissa exceeds the
rounded value by less than 0.5), and to the greatest even integer at or
below the mantissa otherwise (excess below 2). -/
theorem autoTickStep_rounds_down (rawStep : ℚ) (h : 0 < rawStep) :
    (rawStep / (10 : ℚ) ^ Int.log 10 rawStep < 5 →
      ∃ k : ℤ,
        autoTickStep rawStep = (k : ℚ) / 2 * (10 : ℚ) ^ Int.log 10 rawStep ∧
        (k : ℚ) / 2 ≤ rawStep / (10 : ℚ) ^ Int.log 10 rawStep ∧
        rawStep / (10 : ℚ) ^ Int.log 10 rawStep - (k : ℚ) / 2 < 1 / 2) ∧
    (5 ≤ rawStep / (10 : ℚ) ^ Int.log 10 rawStep →
      ∃ k : ℤ,
        autoTickStep rawStep = 2 * (k : ℚ) * (10 : ℚ) ^ Int.log 10 rawStep ∧
        2 * (k : ℚ) ≤ rawStep / (10 : ℚ) ^ Int.log 10 rawStep ∧
        rawStep / (10 : ℚ) ^ Int.log 10 rawStep - 2 * (k : ℚ) < 2) := by
  have hpos : (0 : ℚ) < (10 : ℚ) ^ Int.log 10 rawStep := zpow_pos (by norm_num) _
  have hm1 : 1 ≤ rawStep / (10 : ℚ) ^ Int.log 10 rawStep :=
    (one_le_div hpos).mpr (Int.zpow_log_le_self (by norm_num) h)
  set m : ℚ := rawStep / (10 : ℚ) ^ Int.log 10 rawStep with hm
  constructor
  · intro hlt
    refine ⟨⌊m * 2⌋, ?_, ?_, ?_⟩
    · unfold autoTickStep
      dsimp only
      rw [← hm, if_pos hlt, show cIntTrunc (m * 2) = ⌊m * 2⌋ by
        unfold cIntTrunc; rw [if_pos (by linarith)]]
    · have := Int.floor_le (m * 2)
      linarith
    · have := Int.lt_floor_add_one (m * 2)
      linarith
  · intro hge
    refine ⟨⌊m / 2⌋, ?_, ?_, ?_⟩
    · unfold autoTickStep
      dsimp only
      rw [← hm, if_neg (not_lt.mpr hge), show cIntTrunc (m / 2) = ⌊m / 2⌋ by
        unfold cIntTrunc; rw [if_pos (by linarith)]]
      ring
    · have := Int.floor_le (m / 2)
      linarith
    · have := Int.lt_floor_add_one (m / 2)
      linarith

/-- Witness for `autoTickStep_rounds_down` at raw step 3. -/
theorem autoTickStep_rounds_down_w :
    (0 : ℚ) < 3 ∧
      ((3 : ℚ) / (10 : ℚ) ^ Int.log 10 (3 : ℚ) < 5 →
        ∃ k : ℤ,
          autoTickStep 3 = (k : ℚ) / 2 * (10 : ℚ) ^ Int.log 10 (3 : ℚ) ∧
          (k : ℚ) / 2 ≤ (3 : ℚ) / (10 : ℚ) ^ Int.log 10 (3 : ℚ) ∧
          (3 : ℚ) / (10 : ℚ) ^ Int.log 10 (3 : ℚ) - (k : ℚ) / 2 < 1 / 2) :=
  ⟨by norm_num, (autoTickStep_rounds_down 3 (by norm_num)).1⟩

/-- Qt orientation of an axis (`Qt::Horizontal`/`Qt::Vertical`), as returned
by `QCPAxis::orientation()`. -/
inductive Orientation where
  | horizontal
  | vertical
deriving DecidableEq

/-- Range of an axis over the reals: the coordinate transforms need `log`
and `pow`, which have no exact rational counterpart. -/
structure QCPRangeR where
  lower : ℝ
  upper : ℝ

/-- Method `QCPRange::size()` over the reals. -/
def QCPRangeR.size (r : QCPRangeR) : ℝ := r.upper - r.lower

/-- The `QCPAxis` state read by `coordToPixel`/`pixelToCoord`: orientation,
scale type, reversed flag, range, log base and axis rect. -/
structure QCPAxisT where
  orientation : Orientation
  mScaleType : ScaleType
  mRangeReversed : Bool
  mRange : QCPRangeR
  mScaleLogBase : ℝ
  mAxisRect : QRect

/-- Method `QCPAxis::baseLog(value)` (qcustomplot.cpp lines 6311-6314):
`qLn(value)*mScaleLogBaseLogInv`, where `mScaleLogBaseLogInv` is the cached
`1.0/qLn(mScaleLogBase)`. -/
noncomputable def baseLog (base value : ℝ) : ℝ :=
  Real.log value * (Real.log base)⁻¹

/-- Method `QCPAxis::pixelToCoord(double value)` (qcustomplot.cpp lines
5265-5298).  The source's `if (!mRangeReversed) A else B` pairs are
rendered as `bif mRangeReversed then B else A`. -/
noncomputable def pixelToCoord (a : QCPAxisT) (value : ℝ) : ℝ :=
  match a.orientation with
  | .horizontal =>
    match a.mScaleType with
    | .stLinear =>
      bif a.mRangeReversed then
        -(value - (a.mAxisRect.left : ℝ)) / (a.mAxisRect.width : ℝ) * a.mRange.size +
          a.mRange.upper
      else
        (value - (a.mAxisRect.left : ℝ)) / (a.mAxisRect.width : ℝ) * a.mRange.size +
          a.mRange.lower
    | .stLogarithmic =>
      bif a.mRangeReversed then
        (a.mRange.upper / a.mRange.lower) ^
            (((a.mAxisRect.left : ℝ) - value) / (a.mAxisRect.width : ℝ)) * a.mRange.upper
      else
        (a.mRange.upper / a.mRange.lower) ^
            ((value - (a.mAxisRect.left : ℝ)) / (a.mAxisRect.width : ℝ)) * a.mRange.lower
  | .vertical =>
    match a.mScaleType with
    | .stLinear =>
      bif a.mRangeReversed then
        -((a.mAxisRect.bottom : ℝ) - value) / (a.mAxisRect.height : ℝ) * a.mRange.size +
          a.mRange.upper
      else
        ((a.mAxisRect.bottom : ℝ) - value) / (a.mAxisRect.height : ℝ) * a.mRange.size +
          a.mRange.lower
    | .stLogarithmic =>
      bif a.mRangeReversed then
        (a.mRange.upper / a.mRange.lower) ^
            ((value - (a.mAxisRect.bottom : ℝ)) / (a.mAxisRect.height : ℝ)) * a.mRange.upper
      else
        (a.mRange.upper / a.mRange.lower) ^
            (((a.mAxisRect.bottom : ℝ) - value) / (a.mAxisRect.height : ℝ)) * a.mRange.lower

open Classical in
/-- Method `QCPAxis::coordToPixel(double value)` (qcustomplot.cpp lines
5303-5350), including the ±200-pixel overflow sentinels for values on the
wrong side of zero of a logarithmic axis. -/
noncomputable def coordToPixel (a : QCPAxisT) (value : ℝ) : ℝ :=
  match a.orientation with
  | .horizontal =>
    match a.mScaleType with
    | .stLinear =>
      bif a.mRangeReversed then
        (a.mRange.upper - value) / a.mRange.size * (a.mAxisRect.width : ℝ) +
          (a.mAxisRect.left : ℝ)
      else
        (value - a.mRange.lower) / a.mRange.size * (a.mAxisRect.width : ℝ) +
          (a.mAxisRect.left : ℝ)
    | .stLogarithmic =>
      if 0 ≤ value ∧ a.mRange.upper < 0 then
        bif a.mRangeReversed then (a.mAxisRect.left : ℝ) - 200
        else (a.mAxisRect.right : ℝ) + 200
      else if value ≤ 0 ∧ 0 < a.mRange.upper then
        bif a.mRangeReversed then (a.mAxisRect.right : ℝ) + 200
        else (a.mAxisRect.left : ℝ) - 200
      else
        bif a.mRangeReversed then
          baseLog a.mScaleLogBase (a.mRange.upper / value) /
              baseLog a.mScaleLogBase (a.mRange.upper / a.mRange.lower) *
              (a.mAxisRect.width : ℝ) + (a.mAxisRect.left : ℝ)
        else
          baseLog a.mScaleLogBase (value / a.mRange.lower) /
              baseLog a.mScaleLogBase (a.mRange.upper / a.mRange.lower) *
              (a.mAxisRect.width : ℝ) + (a.mAxisRect.left : ℝ)
  | .vertical =>
    match a.mScaleType with
    | .stLinear =>
      bif a.mRangeReversed then
        (a.mAxisRect.bottom : ℝ) -
          (a.mRange.upper - value) / a.mRange.size * (a.mAxisRect.height : ℝ)
      else
        (a.mAxisRect.bottom : ℝ) -
          (value - a.mRange.lower) / a.mRange.size * (a.mAxisRect.height : ℝ)
    | .stLogarithmic =>
      if 0 ≤ value ∧ a.mRange.upper < 0 then
        bif a.mRangeReversed then (a.mAxisRect.bottom : ℝ) + 200
        else (a.mAxisRect.top : ℝ) - 200
      else if value ≤ 0 ∧ 0 < a.mRange.upper then
        bif a.mRangeReversed then (a.mAxisRect.top : ℝ) - 200
        else (a.mAxisRect.bottom : ℝ) + 200
      else
        bif a.mRangeReversed then
          (a.mAxisRect.bottom : ℝ) -
            baseLog a.mScaleLogBase (a.mRange.upper / value) /
              baseLog a.mScaleLogBase (a.mRange.upper / a.mRange.lower) *
              (a.mAxisRect.height : ℝ)
        else
          (a.mAxisRect.bottom : ℝ) -
            baseLog a.mScaleLogBase (value / a.mRange.lower) /
              baseLog a.mScaleLogBase (a.mRange.upper / a.mRange.lower) *
              (a.mAxisRect.height : ℝ)

theorem log_ne_zero_of (y : ℝ) (hy : 0 < y) (hy1 : y ≠ 1) : Real.log y ≠ 0 := by
  intro h
  rcases Real.log_eq_zero.mp h with h0 | h0 | h0
  · linarith
  · exact hy1 h0
  · linarith

/-- Key cancellation of the log-scale transform: raising `y` to the ratio
`baseLog x / baseLog y` recovers `x` (for positive `x`, `y`, `y ≠ 1` and a
log base above one). -/
theorem rpow_baseLog_ratio (base x y : ℝ) (hbase : 1 < base) (hx : 0 < x) (hy : 0 < y)
    (hy1 : y ≠ 1) : y ^ (baseLog base x / baseLog base y) = x := by
  unfold baseLog
  have hb : Real.log base ≠ 0 := log_ne_zero_of base (by linarith) (by intro h; linarith [h])
  rw [mul_div_mul_right _ _ (inv_ne_zero hb)]
  rw [Real.rpow_def_of_pos hy, mul_comm, div_mul_cancel₀ _ (log_ne_zero_of y hy hy1)]
  exact Real.exp_log hx

theorem roundtrip_sign_facts (l u v : ℝ) (hlu : l < u) (hsign : 0 < l ∨ u < 0)
    (hv1 : l ≤ v) (hv2 : v ≤ u) :
    0 < v / l ∧ 0 < u / l ∧ u / l ≠ 1 ∧ 0 < u / v ∧ l ≠ 0 ∧ u ≠ 0 ∧ v ≠ 0 := by
  rcases hsign with h | h
  · have hv0 : 0 < v := lt_of_lt_of_le h hv1
    have hu0 : 0 < u := lt_trans h hlu
    refine ⟨div_pos hv0 h, div_pos hu0 h, ?_, div_pos hu0 hv0, ne_of_gt h, ne_of_gt hu0,
      ne_of_gt hv0⟩
    have : 1 < u / l := (one_lt_div h).mpr hlu
    exact ne_of_gt this
  · have hl0 : l < 0 := lt_trans hlu h
    have hv0 : v < 0 := lt_of_le_of_lt hv2 h
    refine ⟨div_pos_of_neg_of_neg hv0 hl0, div_pos_of_neg_of_neg h hl0, ?_,
      div_pos_of_neg_of_neg h hv0, ne_of_lt hl0, ne_of_lt h, ne_of_lt hv0⟩
    have : u / l < 1 := by
      rw [div_lt_one_iff]
      exact Or.inr (Or.inr ⟨hl0, hlu⟩)
    exact ne_of_lt this

theorem log_roundtrip_core (base l u v : ℝ) (hbase : 1 < base) (hlu : l < u)
    (hsign : 0 < l ∨ u < 0) (hv1 : l ≤ v) (hv2 : v ≤ u) :
    (u / l) ^ (baseLog base (v / l) / baseLog base (u / l)) * l = v := by
  obtain ⟨f1, f2, f3, f4, hl0, hu0, hv0⟩ := roundtrip_sign_facts l u v hlu hsign hv1 hv2
  rw [rpow_baseLog_ratio base (v / l) (u / l) hbase f1 f2 f3, div_mul_cancel₀ v hl0]

theorem log_roundtrip_core_rev (base l u v : ℝ) (hbase : 1 < base) (hlu : l < u)
    (hsign : 0 < l ∨ u < 0) (hv1 : l ≤ v) (hv2 : v ≤ u) :
    (u / l) ^ (-(baseLog base (u / v) / baseLog base (u / l))) * u = v := by
  obtain ⟨f1, f2, f3, f4, hl0, hu0, hv0⟩ := roundtrip_sign_facts l u v hlu hsign hv1 hv2
  rw [Real.rpow_neg (le_of_lt f2), rpow_baseLog_ratio base (u / v) (u / l) hbase f4 f2 f3,
    inv_div, div_mul_cancel₀ v hu0]

theorem pix_exp1 (X w left : ℝ) (hw : w ≠ 0) : (X * w + left - left) / w = X := by
  rw [add_sub_cancel_right, mul_div_cancel_right₀ _ hw]

theorem pix_exp2 (X w left : ℝ) (hw : w ≠ 0) : (left - (X * w + left)) / w = -X := by
  rw [show left - (X * w + left) = -(X * w) by ring, neg_div, mul_div_cancel_right₀ _ hw]

theorem pix_exp3 (X h bottom : ℝ) (hh : h ≠ 0) : (bottom - (bottom - X * h)) / h = X := by
  rw [show bottom - (bottom - X * h) = X * h by ring, mul_div_cancel_right₀ _ hh]

theorem pix_exp4 (X h bottom : ℝ) (hh : h ≠ 0) : (bottom - X * h - bottom) / h = -X := by
  rw [show bottom - X * h - bottom = -(X * h) by ring, neg_div, mul_div_cancel_right₀ _ hh]

/-- Claim C3: for an axis with a valid range (`lower < upper`; for
logarithmic scale additionally not spanning zero), a log base above one and
an axis rect of positive pixel extent, `pixelToCoord` inverts
`coordToPixel` exactly (over exact real arithmetic) on every value in the
range, for both scale types, both orientations and both settings of the
reversed flag. -/
theorem pixelToCoord_coordToPixel (a : QCPAxisT) (v : ℝ)
    (hbase : 1 < a.mScaleLogBase)
    (hlu : a.mRange.lower < a.mRange.upper)
    (hw : 0 < a.mAxisRect.width) (hh : 0 < a.mAxisRect.height)
    (hlog : a.mScaleType = .stLogarithmic → 0 < a.mRange.lower ∨ a.mRange.upper < 0)
    (hv1 : a.mRange.lower ≤ v) (hv2 : v ≤ a.mRange.upper) :
    pixelToCoord a (coordToPixel a v) = v := by
  obtain ⟨orient, scale, rev, ⟨l, u⟩, base, rect⟩ := a
  dsimp only at hbase hlu hlog hv1 hv2 hw hh ⊢
  have hw0 : ((rect.width : ℤ) : ℝ) ≠ 0 := Int.cast_ne_zero.mpr (ne_of_gt hw)
  have hh0 : ((rect.height : ℤ) : ℝ) ≠ 0 := Int.cast_ne_zero.mpr (ne_of_gt hh)
  have hsz : u - l ≠ 0 := ne_of_gt (sub_pos.mpr hlu)
  cases orient <;> cases scale <;> cases rev <;>
    unfold coordToPixel pixelToCoord QCPRangeR.size <;> dsimp only <;>
    simp only [Bool.cond_true, Bool.cond_false]
  · field_simp
    ring
  · field_simp
    ring
  · have hs1 : ¬(0 ≤ v ∧ u < 0) := by
      rcases hlog rfl with hpos | hneg <;> rintro ⟨h1, h2⟩ <;> linarith
    have hs2 : ¬(v ≤ 0 ∧ 0 < u) := by
      rcases hlog rfl with hpos | hneg <;> rintro ⟨h1, h2⟩ <;> linarith
    rw [if_neg hs1, if_neg hs2, pix_exp1 _ _ _ hw0]
    exact log_roundtrip_core base l u v hbase hlu (hlog rfl) hv1 hv2
  · have hs1 : ¬(0 ≤ v ∧ u < 0) := by
      rcases hlog rfl with hpos | hneg <;> rintro ⟨h1, h2⟩ <;> linarith
    have hs2 : ¬(v ≤ 0 ∧ 0 < u) := by
      rcases hlog rfl with hpos | hneg <;> rintro ⟨h1, h2⟩ <;> linarith
    rw [if_neg hs1, if_neg hs2, pix_exp2 _ _ _ hw0]
    exact log_roundtrip_core_rev base l u v hbase hlu (hlog rfl) hv1 hv2
  · field_simp
    ring
  · field_simp
    ring
  · have hs1 : ¬(0 ≤ v ∧ u < 0) := by
      rcases hlog rfl with hpos | hneg <;> rintro ⟨h1, h2⟩ <;> linarith
    have hs2 : ¬(v ≤ 0 ∧ 0 < u) := by
      rcases hlog rfl with hpos | hneg <;> rintro ⟨h1, h2⟩ <;> linarith
    rw [if_neg hs1, if_neg hs2, pix_exp3 _ _ _ hh0]
    exact log_roundtrip_core base l u v hbase hlu (hlog rfl) hv1 hv2
  · have hs1 : ¬(0 ≤ v ∧ u < 0) := by
      rcases hlog rfl with hpos | hneg <;> rintro ⟨h1, h2⟩ <;> linarith
    have hs2 : ¬(v ≤ 0 ∧ 0 < u) := by
      rcases hlog rfl with hpos | hneg <;> rintro ⟨h1, h2⟩ <;> linarith
    rw [if_neg hs1, if_neg hs2, pix_exp4 _ _ _ hh0]
    exact log_roundtrip_core_rev base l u v hbase hlu (hlog rfl) hv1 hv2

/-- Witness for `pixelToCoord_coordToPixel`: the spec's concrete scenario,
a horizontal linear non-reversed axis over range (0,5) with pixel span
starting at 50 and width 400, at the value 2.5. -/
theorem pixelToCoord_coordToPixel_w :
    pixelToCoord ⟨.horizontal, .stLinear, false, ⟨0, 5⟩, 10, QRect.mk4 50 0 400 300⟩
        (coordToPixel ⟨.horizontal, .stLinear, false, ⟨0, 5⟩, 10, QRect.mk4 50 0 400 300⟩
          (5 / 2)) = 5 / 2 :=
  pixelToCoord_coordToPixel _ (5 / 2) (by norm_num) (by norm_num) (by decide) (by decide)
    (fun h => ScaleType.noConfusion h) (by norm_num) (by norm_num)

/-- Qt `qRound`: `(int)(d + 0.5)` for non-negative `d`, `(int)(d - 0.5)`
otherwise, the cast truncating toward zero. -/
def qRound (x : ℚ) : ℤ := if 0 ≤ x then ⌊x + 1 / 2⌋ else ⌈x - 1 / 2⌉

/-- The inputs of `QCPLayout::getSectionSizes` after the guard checks:
section count, the three per-section vectors (as functions from the section
index) and the total size. -/
structure SolverParams where
  sectionCount : ℕ
  maxSizes : ℕ → ℚ
  minSizes : ℕ → ℚ
  stretchFactors : ℕ → ℚ
  totalSize : ℚ

/-- The mutable state of the two fixed-point loops of
`QCPLayout::getSectionSizes`: the working real-valued sizes, the list of
still-unfinished section indices, the permanently min-locked sections and
the remaining free size. -/
structure SolverState where
  sectionSizes : ℕ → ℚ
  unfinishedSections : List ℕ
  minimumLockedSections : List ℕ
  freeSize : ℚ

/-- The scan for the unfinished section that would hit its maximum soonest
(qcustomplot.cpp lines 2481-2492): iterates `unfinishedSections` in order
starting from `nextId = -1` (rendered as `none`) and `nextMax = 1e12`,
taking each section whose `hitsMaxAt = (max - size)/stretch` is strictly
below the current minimum. -/
def findNextMax (p : SolverParams) (sizes : ℕ → ℚ) (unfinished : List ℕ) : Option ℕ × ℚ :=
  unfinished.foldl
    (fun acc secId =>
      if (p.maxSizes secId - sizes secId) / p.stretchFactors secId < acc.2 then
        (some secId, (p.maxSizes secId - sizes secId) / p.stretchFactors secId)
      else acc)
    (none, 10 ^ 12)

/-- One iteration of the inner loop of `QCPLayout::getSectionSizes`
(qcustomplot.cpp lines 2478-2512): if the next maximum is hit within the
free budget, advance every unfinished section proportionally to that point
and remove the capped section (`removeOne(-1)` when no section was found is
a no-op); otherwise distribute all remaining free space proportionally and
finish every section. -/
def innerStep (p : SolverParams) (st : SolverState) : SolverState :=
  let nextId := (findNextMax p st.sectionSizes st.unfinishedSections).1
  let nextMax := (findNextMax p st.sectionSizes st.unfinishedSections).2
  let stretchFactorSum := (st.unfinishedSections.map p.stretchFactors).sum
  let nextMaxLimit := st.freeSize / stretchFactorSum
  if nextMax < nextMaxLimit then
    { st with
      sectionSizes :=
        st.unfinishedSections.foldl
          (fun s i => Function.update s i (s i + nextMax * p.stretchFactors i))
          st.sectionSizes
      freeSize :=
        st.freeSize - (st.unfinishedSections.map (fun i => nextMax * p.stretchFactors i)).sum
      unfinishedSections :=
        match nextId with
        | some j => st.unfinishedSections.erase j
        | none => st.unfinishedSections }
  else
    { st with
      sectionSizes :=
        st.unfinishedSections.foldl
          (fun s i => Function.update s i (s i + nextMaxLimit * p.stretchFactors i))
          st.sectionSizes
      unfinishedSections := [] }

/-- The inner loop with its fail-safe iteration budget
(`innerIterations < sectionCount*2`), which is exactly a fuel argument. -/
def innerLoop (p : SolverParams) : ℕ → SolverState → SolverState
  | 0, st => st
  | fuel + 1, st =>
    if st.unfinishedSections = [] then st
    else innerLoop p fuel (innerStep p st)

/-- The minimum-violation sweep of the outer loop (qcustomplot.cpp lines
2516-2530): every not-yet-locked section whose size fell below its minimum
is clamped to the minimum and locked; the second component reports
`foundMinimumViolation`. -/
def minViolationPass (p : SolverParams) (st : SolverState) : SolverState × Bool :=
  (List.range p.sectionCount).foldl
    (fun acc i =>
      if i ∈ acc.1.minimumLockedSections then acc
      else if acc.1.sectionSizes i < p.minSizes i then
        ({ acc.1 with
            sectionSizes := Function.update acc.1.sectionSizes i (p.minSizes i)
            minimumLockedSections := acc.1.minimumLockedSections ++ [i] }, true)
      else acc)
    (st, false)

/-- The violation-recovery step of the outer loop (qcustomplot.cpp lines
2531-2544): reset the free size to the total minus the locked sections'
sizes, append every non-locked index to `unfinishedSections` (the source
appends to whatever the inner loop left there), and zero the size of every
section listed in the resulting `unfinishedSections`. -/
def refillUnfinished (p : SolverParams) (st : SolverState) : SolverState :=
  let st1 := { st with
    freeSize := p.totalSize -
      (((List.range p.sectionCount).filter
        (fun i => i ∈ st.minimumLockedSections)).map st.sectionSizes).sum
    unfinishedSections := st.unfinishedSections ++
      (List.range p.sectionCount).filter (fun i => ¬i ∈ st.minimumLockedSections) }
  { st1 with
    sectionSizes :=
      st1.unfinishedSections.foldl (fun s i => Function.update s i 0) st1.sectionSizes }

/-- One iteration of the outer loop: run the inner loop with its fuel
budget, sweep for minimum violations, and on violation rebuild the free
pool. -/
def outerBody (p : SolverParams) (st : SolverState) : SolverState :=
  let chk := minViolationPass p (innerLoop p (p.sectionCount * 2) st)
  if chk.2 then refillUnfinished p chk.1 else chk.1

/-- The outer loop with its fail-safe iteration budget
(`outerIterations < sectionCount*2`). -/
def outerLoop (p : SolverParams) : ℕ → SolverState → SolverState
  | 0, st => st
  | fuel + 1, st =>
    if st.unfinishedSections = [] then st
    else outerLoop p fuel (outerBody p st)

/-- The body of `QCPLayout::getSectionSizes` after the guards: the
infeasible-minimum squeeze (when the minimums sum beyond the total, they
become the stretch factors and are zeroed), then the nested loops from the
all-zero size vector. -/
def solveSections (p : SolverParams) : SolverState :=
  let minSizeSum := ((List.range p.sectionCount).map p.minSizes).sum
  let p2 :=
    if p.totalSize < minSizeSum then
      { p with stretchFactors := p.minSizes, minSizes := fun _ => 0 }
    else p
  outerLoop p2 (p.sectionCount * 2)
    { sectionSizes := fun _ => 0
      unfinishedSections := List.range p.sectionCount
      minimumLockedSections := []
      freeSize := p.totalSize }

/-- Method `QCPLayout::getSectionSizes(maxSizes, minSizes, stretchFactors,
totalSize)` (qcustomplot.cpp lines 2440-2551): empty result on mismatched
vector lengths or empty stretch factors, otherwise the solver state machine
above followed by `qRound` of every final size. -/
def getSectionSizes (maxSizes minSizes : List ℤ) (stretchFactors : List ℚ)
    (totalSize : ℤ) : List ℤ :=
  if maxSizes.length ≠ minSizes.length ∨ minSizes.length ≠ stretchFactors.length then []
  else if stretchFactors = [] then []
  else
    let p : SolverParams :=
      { sectionCount := stretchFactors.length
        maxSizes := fun i => ((maxSizes.getD i 0 : ℤ) : ℚ)
        minSizes := fun i => ((minSizes.getD i 0 : ℤ) : ℚ)
        stretchFactors := fun i => stretchFactors.getD i 0
        totalSize := (totalSize : ℚ) }
    (List.range p.sectionCount).map (fun i => qRound ((solveSections p).sectionSizes i))

theorem innerLoop_succ (p : SolverParams) (fuel : ℕ) (st : SolverState) :
    innerLoop p (fuel + 1) st =
      if st.unfinishedSections = [] then st else innerLoop p fuel (innerStep p st) := rfl

theorem innerLoop_zero (p : SolverParams) (st : SolverState) : innerLoop p 0 st = st := rfl

theorem outerLoop_succ (p : SolverParams) (fuel : ℕ) (st : SolverState) :
    outerLoop p (fuel + 1) st =
      if st.unfinishedSections = [] then st else outerLoop p fuel (outerBody p st) := rfl

theorem outerLoop_zero (p : SolverParams) (st : SolverState) : outerLoop p 0 st = st := rfl

/-- Claim C1, failing input: one section with minSize 5, maxSize 10, stretch
factor 1e-12 and totalSize 5.  The input is valid for the claim (positive
stretch, min below max, jointly feasible minimums), yet the returned size is
0, below the minimum of 5: the tiny stretch factor makes every
`hitsMaxAt` scan come back empty-handed (all ≥ 1e12), the inner loop burns
its fail-safe budget in 1-pixel steps, the minimum sweep locks the section
at 5 — and the recovery step, because the stale `unfinishedSections` entry
was never cleared, resets the just-locked section to zero, which the final
rounds never repair.  This contradicts the function's own documentation
that minimums are honored whenever they fit into `totalSize`, and trips the
"just a failsafe in case something really strange happens" iteration guard
the authors considered unreachable. -/
theorem getSectionSizes_min_bug :
    getSectionSizes [10] [5] [1 / 10 ^ 12] 5 = [0] ∧
      (0 : ℚ) < 1 / 10 ^ 12 ∧ (5 : ℤ) ≤ 10 ∧ (5 : ℤ) ≤ 5 ∧ ¬((5 : ℤ) ≤ 0) := by
  refine ⟨?_, by norm_num, by norm_num, by norm_num, by norm_num⟩
  norm_num [getSectionSizes, solveSections, outerLoop_succ, outerLoop_zero, outerBody,
    innerLoop_succ, innerLoop_zero, innerStep, findNextMax, minViolationPass,
    refillUnfinished, qRound, Function.update, List.range_succ, List.getD, List.foldl]

/-- Claim C2, counterexample: one section with maxSize 30 (non-negative
bounds, positive stretch factor) and totalSize 100: the section caps out at
30 and the result sums to 30, off by 70 from totalSize — far beyond the
claimed rounding error bound of sectionCount/2 = 1/2. -/
theorem getSectionSizes_sum_cex :
    getSectionSizes [30] [0] [1] 100 = [30] ∧
      (0 : ℚ) < 1 ∧ (0 : ℤ) ≤ 0 ∧ (0 : ℤ) ≤ 30 ∧
      ¬(|(30 : ℚ) - 100| ≤ 1 / 2) := by
  refine ⟨?_, by norm_num, by norm_num, by norm_num, ?_⟩
  · norm_num [getSectionSizes, solveSections, outerLoop_succ, outerLoop_zero, outerBody,
      innerLoop_succ, innerLoop_zero, innerStep, findNextMax, minViolationPass,
      refillUnfinished, qRound, Function.update, List.range_succ, List.getD, List.foldl]
  · rw [show (30 : ℚ) - 100 = -70 by norm_num, abs_neg, abs_of_pos (by norm_num)]
    norm_num

theorem innerLoop_empty (p : SolverParams) (fuel : ℕ) (st : SolverState)
    (h : st.unfinishedSections = []) : innerLoop p fuel st = st := by
  cases fuel with
  | zero => rfl
  | succ f => rw [innerLoop_succ, if_pos h]

theorem outerLoop_empty (p : SolverParams) (fuel : ℕ) (st : SolverState)
    (h : st.unfinishedSections = []) : outerLoop p fuel st = st := by
  cases fuel with
  | zero => rfl
  | succ f => rw [outerLoop_succ, if_pos h]

theorem updAdd_notmem (δ : ℕ → ℚ) (l : List ℕ) (s : ℕ → ℚ) (j : ℕ) (hj : j ∉ l) :
    l.foldl (fun s i => Function.update s i (s i + δ i)) s j = s j := by
  induction l generalizing s with
  | nil => rfl
  | cons a t ih =>
    rw [List.foldl_cons, ih _ (fun h => hj (List.mem_cons_of_mem a h))]
    exact Function.update_noteq
      (fun h => hj (by rw [h]; exact List.mem_cons_self a t)) _ s

theorem updAdd_mem (δ : ℕ → ℚ) (l : List ℕ) (hnd : l.Nodup) (s : ℕ → ℚ) (j : ℕ)
    (hj : j ∈ l) :
    l.foldl (fun s i => Function.update s i (s i + δ i)) s j = s j + δ j := by
  induction l generalizing s with
  | nil => cases hj
  | cons a t ih =>
    rw [List.foldl_cons]
    rcases List.mem_cons.mp hj with rfl | hj2
    · rw [updAdd_notmem δ t _ j (List.nodup_cons.mp hnd).1, Function.update_same]
    · rw [ih (List.nodup_cons.mp hnd).2 _ hj2]
      have hne : j ≠ a := fun h => (List.nodup_cons.mp hnd).1 (h ▸ hj2)
      rw [Function.update_noteq hne]

theorem updZero_notmem (l : List ℕ) (s : ℕ → ℚ) (j : ℕ) (hj : j ∉ l) :
    l.foldl (fun s i => Function.update s i 0) s j = s j := by
  induction l generalizing s with
  | nil => rfl
  | cons a t ih =>
    rw [List.foldl_cons, ih _ (fun h => hj (List.mem_cons_of_mem a h))]
    exact Function.update_noteq
      (fun h => hj (by rw [h]; exact List.mem_cons_self a t)) _ s

theorem updZero_mem (l : List ℕ) (s : ℕ → ℚ) (j : ℕ) (hj : j ∈ l) :
    l.foldl (fun s i => Function.update s i 0) s j = 0 := by
  induction l generalizing s with
  | nil => cases hj
  | cons a t ih =>
    rw [List.foldl_cons]
    by_cases hjt : j ∈ t
    · exact ih _ hjt
    · have hja : j = a := by
        rcases List.mem_cons.mp hj with h | h
        · exact h
        · exact absurd h hjt
      rw [updZero_notmem t _ j hjt, hja, Function.update_same]

theorem sum_map_add (l : List ℕ) (f g : ℕ → ℚ) :
    (l.map (fun i => f i + g i)).sum = (l.map f).sum + (l.map g).sum := by
  induction l with
  | nil => simp
  | cons a t ih => simp [ih]; ring

theorem sum_map_sub (l : List ℕ) (f g : ℕ → ℚ) :
    (l.map (fun i => f i - g i)).sum = (l.map f).sum - (l.map g).sum := by
  induction l with
  | nil => simp
  | cons a t ih => simp [ih]; ring

theorem sum_map_mul_left_q (l : List ℕ) (c : ℚ) (f : ℕ → ℚ) :
    (l.map (fun i => c * f i)).sum = c * (l.map f).sum := by
  induction l with
  | nil => simp
  | cons a t ih => simp [ih]; ring

theorem sum_map_congr_mem (l : List ℕ) (f g : ℕ → ℚ) (h : ∀ i ∈ l, f i = g i) :
    (l.map f).sum = (l.map g).sum := by
  induction l with
  | nil => rfl
  | cons a t ih =>
    simp only [List.map_cons, List.sum_cons]
    rw [h a (List.mem_cons_self a t), ih (fun i hi => h i (List.mem_cons_of_mem a hi))]

theorem sum_map_nonneg (l : List ℕ) (f : ℕ → ℚ) (h : ∀ i ∈ l, 0 ≤ f i) :
    0 ≤ (l.map f).sum := by
  induction l with
  | nil => simp
  | cons a t ih =>
    simp only [List.map_cons, List.sum_cons]
    have := h a (List.mem_cons_self a t)
    have := ih (fun i hi => h i (List.mem_cons_of_mem a hi))
    linarith

theorem sum_map_le_mem (l : List ℕ) (f g : ℕ → ℚ) (h : ∀ i ∈ l, f i ≤ g i) :
    (l.map f).sum ≤ (l.map g).sum := by
  induction l with
  | nil => simp
  | cons a t ih =>
    simp only [List.map_cons, List.sum_cons]
    have := h a (List.mem_cons_self a t)
    have := ih (fun i hi => h i (List.mem_cons_of_mem a hi))
    linarith

theorem sum_map_lt_mem (l : List ℕ) (hne : l ≠ []) (f g : ℕ → ℚ)
    (h : ∀ i ∈ l, f i < g i) : (l.map f).sum < (l.map g).sum := by
  induction l with
  | nil => exact absurd rfl hne
  | cons a t ih =>
    simp only [List.map_cons, List.sum_cons]
    have ha := h a (List.mem_cons_self a t)
    by_cases ht : t = []
    · subst ht; simpa using ha
    · have := ih ht (fun i hi => h i (List.mem_cons_of_mem a hi))
      linarith

theorem sum_map_erase (l : List ℕ) (f : ℕ → ℚ) (a : ℕ) (ha : a ∈ l) :
    (l.map f).sum = f a + ((l.erase a).map f).sum := by
  have hperm : List.Perm l (a :: l.erase a) := List.perm_cons_erase ha
  have := (hperm.map f).sum_eq
  simpa using this

theorem sum_map_filter_partition (l : List ℕ) (q : ℕ → Bool) (f : ℕ → ℚ) :
    ((l.filter q).map f).sum + ((l.filter (fun i => !q i)).map f).sum = (l.map f).sum := by
  induction l with
  | nil => simp
  | cons a t ih =>
    by_cases hq : q a = true
    · rw [List.filter_cons_of_pos hq, List.filter_cons_of_neg (by simp [hq])]
      simp only [List.map_cons, List.sum_cons]
      linarith [ih]
    · have hq2 : q a = false := Bool.eq_false_iff.mpr hq
      rw [List.filter_cons_of_neg (by simp [hq2]), List.filter_cons_of_pos (by simp [hq2])]
      simp only [List.map_cons, List.sum_cons]
      linarith [ih]

theorem nodup_lt_length_le (l : List ℕ) (n : ℕ) (hnd : l.Nodup) (h : ∀ i ∈ l, i < n) :
    l.length ≤ n := by
  have h1 : l.toFinset.card = l.length := List.toFinset_card_of_nodup hnd
  have h2 : l.toFinset ⊆ Finset.range n := by
    intro i hi
    rw [List.mem_toFinset] at hi
    exact Finset.mem_range.mpr (h i hi)
  have := Finset.card_le_card h2
  rw [h1, Finset.card_range] at this
  exact this

theorem sum_range_update (n : ℕ) (s : ℕ → ℚ) (a : ℕ) (v : ℚ) (ha : a < n) :
    ((List.range n).map (Function.update s a v)).sum = ((List.range n).map s).sum + v - s a := by
  induction n with
  | zero => cases ha
  | succ m ih =>
    rw [List.range_succ]
    simp only [List.map_append, List.sum_append, List.map_cons, List.map_nil, List.sum_cons,
      List.sum_nil]
    by_cases ham : a < m
    · rw [ih ham, Function.update_noteq (Nat.ne_of_lt ham).symm]
      ring
    · have haa : a = m := Nat.eq_of_lt_succ_of_not_lt ha ham
      subst haa
      rw [Function.update_same]
      rw [sum_map_congr_mem (List.range a) (Function.update s a v) s
        (fun i hi => Function.update_noteq (Nat.ne_of_lt (List.mem_range.mp hi)) _ s)]
      ring

theorem updAdd_sum (n : ℕ) (δ : ℕ → ℚ) (l : List ℕ) (hnd : l.Nodup)
    (hsub : ∀ i ∈ l, i < n) (s : ℕ → ℚ) :
    ((List.range n).map (l.foldl (fun s i => Function.update s i (s i + δ i)) s)).sum =
      ((List.range n).map s).sum + (l.map δ).sum := by
  induction l generalizing s with
  | nil => simp
  | cons a t ih =>
    rw [List.foldl_cons]
    rw [ih (List.nodup_cons.mp hnd).2 (fun i hi => hsub i (List.mem_cons_of_mem a hi))]
    rw [sum_range_update n s a (s a + δ a) (hsub a (List.mem_cons_self a t))]
    simp only [List.map_cons, List.sum_cons]
    ring

theorem scanMin_le_start (h : ℕ → ℚ) (l : List ℕ) (acc : Option ℕ × ℚ) :
    (l.foldl (fun a s => if h s < a.2 then (some s, h s) else a) acc).2 ≤ acc.2 := by
  induction l generalizing acc with
  | nil => exact le_refl _
  | cons b t ih =>
    rw [List.foldl_cons]
    refine le_trans (ih _) ?_
    by_cases hb : h b < acc.2
    · rw [if_pos hb]
      exact le_of_lt hb
    · rw [if_neg hb]

theorem scanMin_le_mem (h : ℕ → ℚ) (l : List ℕ) (acc : Option ℕ × ℚ) :
    ∀ i ∈ l, (l.foldl (fun a s => if h s < a.2 then (some s, h s) else a) acc).2 ≤ h i := by
  induction l generalizing acc with
  | nil => intro i hi; cases hi
  | cons b t ih =>
    intro i hi
    rw [List.foldl_cons]
    rcases List.mem_cons.mp hi with rfl | hit
    · refine le_trans (scanMin_le_start h t _) ?_
      by_cases hb : h i < acc.2
      · rw [if_pos hb]
      · rw [if_neg hb]
        exact le_of_not_lt hb
    · exact ih _ i hit

theorem scanMin_attained (h : ℕ → ℚ) (l : List ℕ) (acc : Option ℕ × ℚ) :
    (l.foldl (fun a s => if h s < a.2 then (some s, h s) else a) acc) = acc ∨
      ∃ j ∈ l, (l.foldl (fun a s => if h s < a.2 then (some s, h s) else a) acc) =
        (some j, h j) := by
  induction l generalizing acc with
  | nil => exact Or.inl rfl
  | cons b t ih =>
    rw [List.foldl_cons]
    by_cases hb : h b < acc.2
    · rw [if_pos hb]
      rcases ih (some b, h b) with heq | ⟨j, hj, heq⟩
      · exact Or.inr ⟨b, List.mem_cons_self b t, heq⟩
      · exact Or.inr ⟨j, List.mem_cons_of_mem b hj, heq⟩
    · rw [if_neg hb]
      rcases ih acc with heq | ⟨j, hj, heq⟩
      · exact Or.inl heq
      · exact Or.inr ⟨j, List.mem_cons_of_mem b hj, heq⟩

/-- When every unfinished section's `hitsMaxAt` is strictly below the 1e12
start value and the list is non-empty, the scan returns the first minimal
section. -/
theorem findNextMax_spec (p : SolverParams) (st : SolverState)
    (hne : st.unfinishedSections ≠ [])
    (hall : ∀ i ∈ st.unfinishedSections,
      (p.maxSizes i - st.sectionSizes i) / p.stretchFactors i < 10 ^ 12) :
    ∃ j ∈ st.unfinishedSections,
      findNextMax p st.sectionSizes st.unfinishedSections =
        (some j, (p.maxSizes j - st.sectionSizes j) / p.stretchFactors j) ∧
      ∀ i ∈ st.unfinishedSections,
        (p.maxSizes j - st.sectionSizes j) / p.stretchFactors j ≤
          (p.maxSizes i - st.sectionSizes i) / p.stretchFactors i := by
  obtain ⟨b, t, hbt⟩ := List.exists_cons_of_ne_nil hne
  have hb : b ∈ st.unfinishedSections := by rw [hbt]; exact List.mem_cons_self b t
  unfold findNextMax
  rcases scanMin_attained (fun i => (p.maxSizes i - st.sectionSizes i) / p.stretchFactors i)
      st.unfinishedSections (none, 10 ^ 12) with heq | ⟨j, hj, heq⟩
  · exfalso
    have h1 := scanMin_le_mem (fun i => (p.maxSizes i - st.sectionSizes i) / p.stretchFactors i)
      st.unfinishedSections (none, 10 ^ 12) b hb
    rw [heq] at h1
    exact absurd (lt_of_le_of_lt h1 (hall b hb)) (lt_irrefl _)
  · refine ⟨j, hj, heq, ?_⟩
    intro i hi
    have := scanMin_le_mem (fun i => (p.maxSizes i - st.sectionSizes i) / p.stretchFactors i)
      st.unfinishedSections (none, 10 ^ 12) i hi
    rw [heq] at this
    exact this

/-- Invariant of the inner loop under the no-saturation hypotheses: the
unfinished list is duplicate-free and in range, every size sits in
`[0, maxSize]`, and the free size is non-negative and within the remaining
capacity of the unfinished sections. -/
def InnerInv (p : SolverParams) (st : SolverState) : Prop :=
  st.unfinishedSections.Nodup ∧
  (∀ i ∈ st.unfinishedSections, i < p.sectionCount) ∧
  (∀ i, i < p.sectionCount → 0 ≤ st.sectionSizes i ∧ st.sectionSizes i ≤ p.maxSizes i) ∧
  0 ≤ st.freeSize ∧
  st.freeSize ≤ (st.unfinishedSections.map (fun i => p.maxSizes i - st.sectionSizes i)).sum

/-- Master lemma for the inner loop: under the invariant and the
no-saturation hypotheses, within its fuel the loop always terminates by
distributing all remaining free space — every section ends within
`[0, maxSize]`, sections outside the unfinished pool are untouched, the
locked list is untouched, and the grand total of sizes grows by exactly the
entry free size. -/
theorem innerLoop_spec (p : SolverParams)
    (Hstr : ∀ i, i < p.sectionCount → 0 < p.stretchFactors i)
    (Hcap : ∀ i, i < p.sectionCount → p.maxSizes i < 10 ^ 12 * p.stretchFactors i) :
    ∀ (fuel : ℕ) (st : SolverState), InnerInv p st → st.unfinishedSections ≠ [] →
      st.unfinishedSections.length ≤ fuel →
      (innerLoop p fuel st).unfinishedSections = [] ∧
      (innerLoop p fuel st).minimumLockedSections = st.minimumLockedSections ∧
      (∀ i, i < p.sectionCount → 0 ≤ (innerLoop p fuel st).sectionSizes i ∧
        (innerLoop p fuel st).sectionSizes i ≤ p.maxSizes i) ∧
      (∀ i, i ∉ st.unfinishedSections →
        (innerLoop p fuel st).sectionSizes i = st.sectionSizes i) ∧
      ((List.range p.sectionCount).map (innerLoop p fuel st).sectionSizes).sum =
        ((List.range p.sectionCount).map st.sectionSizes).sum + st.freeSize := by
  intro fuel
  induction fuel with
  | zero =>
    intro st hinv hne hlen
    exact absurd (List.eq_nil_of_length_eq_zero (Nat.le_zero.mp hlen)) hne
  | succ f ih =>
    intro st hinv hne hlen
    obtain ⟨hnd, hmemn, hbounds, hfree0, hcapa⟩ := hinv
    have hallhits : ∀ i ∈ st.unfinishedSections,
        (p.maxSizes i - st.sectionSizes i) / p.stretchFactors i < 10 ^ 12 := by
      intro i hi
      have hin := hmemn i hi
      have hs := Hstr i hin
      have hb := hbounds i hin
      calc (p.maxSizes i - st.sectionSizes i) / p.stretchFactors i
          ≤ p.maxSizes i / p.stretchFactors i :=
            (div_le_div_right hs).mpr (by linarith [hb.1])
        _ < 10 ^ 12 := (div_lt_iff hs).mpr (by linarith [Hcap i hin])
    have hhits0 : ∀ i ∈ st.unfinishedSections,
        0 ≤ (p.maxSizes i - st.sectionSizes i) / p.stretchFactors i := by
      intro i hi
      exact div_nonneg (by linarith [(hbounds i (hmemn i hi)).2])
        (le_of_lt (Hstr i (hmemn i hi)))
    obtain ⟨j, hjmem, hscan, hjmin⟩ := findNextMax_spec p st hne hallhits
    have hjn := hmemn j hjmem
    have hstrj := Hstr j hjn
    have hσpos : 0 < (st.unfinishedSections.map p.stretchFactors).sum := by
      apply List.sum_pos
      · intro x hx
        obtain ⟨i, hi, rfl⟩ := List.mem_map.mp hx
        exact Hstr i (hmemn i hi)
      · intro h
        exact hne (List.map_eq_nil.mp h)
    have hmulj : (p.maxSizes j - st.sectionSizes j) / p.stretchFactors j * p.stretchFactors j =
        p.maxSizes j - st.sectionSizes j := div_mul_cancel₀ _ (ne_of_gt hstrj)
    rw [innerLoop_succ, if_neg hne]
    by_cases hbr : (p.maxSizes j - st.sectionSizes j) / p.stretchFactors j <
        st.freeSize / (st.unfinishedSections.map p.stretchFactors).sum
    · -- the scanned section is advanced exactly to its maximum and removed
      have hstep : innerStep p st =
          { st with
            sectionSizes := st.unfinishedSections.foldl
              (fun s i => Function.update s i
                (s i + (p.maxSizes j - st.sectionSizes j) / p.stretchFactors j *
                  p.stretchFactors i)) st.sectionSizes
            freeSize := st.freeSize - (st.unfinishedSections.map
              (fun i => (p.maxSizes j - st.sectionSizes j) / p.stretchFactors j *
                p.stretchFactors i)).sum
            unfinishedSections := st.unfinishedSections.erase j } := by
        unfold innerStep
        rw [hscan]
        dsimp only
        rw [if_pos hbr]
      rw [hstep]
      set m : ℚ := (p.maxSizes j - st.sectionSizes j) / p.stretchFactors j with hmdef
      have hm0 : 0 ≤ m := hhits0 j hjmem
      have hconsumed : (st.unfinishedSections.map (fun i => m * p.stretchFactors i)).sum =
          m * (st.unfinishedSections.map p.stretchFactors).sum :=
        sum_map_mul_left_q _ _ _
      have hfree' : 0 < st.freeSize - (st.unfinishedSections.map
          (fun i => m * p.stretchFactors i)).sum := by
        rw [hconsumed]
        have := (lt_div_iff hσpos).mp hbr
        linarith
      have hsizes_mem : ∀ i ∈ st.unfinishedSections,
          (st.unfinishedSections.foldl
            (fun s i => Function.update s i (s i + m * p.stretchFactors i))
            st.sectionSizes) i = st.sectionSizes i + m * p.stretchFactors i := by
        intro i hi
        exact updAdd_mem (fun i => m * p.stretchFactors i) _ hnd _ i hi
      have hsizes_notmem : ∀ i, i ∉ st.unfinishedSections →
          (st.unfinishedSections.foldl
            (fun s i => Function.update s i (s i + m * p.stretchFactors i))
            st.sectionSizes) i = st.sectionSizes i := by
        intro i hi
        exact updAdd_notmem (fun i => m * p.stretchFactors i) _ _ i hi
      have hbounds' : ∀ i, i < p.sectionCount →
          0 ≤ (st.unfinishedSections.foldl
            (fun s i => Function.update s i (s i + m * p.stretchFactors i))
            st.sectionSizes) i ∧
          (st.unfinishedSections.foldl
            (fun s i => Function.update s i (s i + m * p.stretchFactors i))
            st.sectionSizes) i ≤ p.maxSizes i := by
        intro i hin
        by_cases hi : i ∈ st.unfinishedSections
        · rw [hsizes_mem i hi]
          have hstri := Hstr i hin
          have hmle : m ≤ (p.maxSizes i - st.sectionSizes i) / p.stretchFactors i := hjmin i hi
          have h2 : m * p.stretchFactors i ≤ p.maxSizes i - st.sectionSizes i := by
            have := mul_le_mul_of_nonneg_right hmle (le_of_lt hstri)
            rw [div_mul_cancel₀ _ (ne_of_gt hstri)] at this
            exact this
          constructor
          · have : 0 ≤ m * p.stretchFactors i := mul_nonneg hm0 (le_of_lt hstri)
            linarith [(hbounds i hin).1]
          · linarith
        · rw [hsizes_notmem i hi]
          exact hbounds i hin
      by_cases herase : st.unfinishedSections.erase j = []
      · -- impossible: the last section cannot cap out within the free budget
        exfalso
        have hlen1 : st.unfinishedSections.length = 1 := by
          have h1 := st.unfinishedSections.length_erase_of_mem hjmem
          rw [herase] at h1
          have h2 : 0 < st.unfinishedSections.length := List.length_pos.mpr hne
          simp only [List.length_nil] at h1
          omega
        obtain ⟨a, ha⟩ := List.length_eq_one.mp hlen1
        have hja : j = a := by
          rw [ha] at hjmem
          simpa using hjmem
        subst hja
        have hcapa2 : st.freeSize ≤ p.maxSizes j - st.sectionSizes j := by
          rw [ha] at hcapa
          simpa using hcapa
        have hσj : (st.unfinishedSections.map p.stretchFactors).sum = p.stretchFactors j := by
          rw [ha]
          simp
        rw [hσj] at hbr
        have h3 := (lt_div_iff hstrj).mp hbr
        rw [hmulj] at h3
        linarith
      · -- recurse on the strictly smaller unfinished pool
        have hnd' : (st.unfinishedSections.erase j).Nodup := hnd.erase j
        have hmemn' : ∀ i ∈ st.unfinishedSections.erase j, i < p.sectionCount :=
          fun i hi => hmemn i (List.mem_of_mem_erase hi)
        have hcap' : st.freeSize - (st.unfinishedSections.map
            (fun i => m * p.stretchFactors i)).sum ≤
            ((st.unfinishedSections.erase j).map
              (fun i => p.maxSizes i - (st.unfinishedSections.foldl
                (fun s i => Function.update s i (s i + m * p.stretchFactors i))
                st.sectionSizes) i)).sum := by
          have he1 : ((st.unfinishedSections.erase j).map
              (fun i => p.maxSizes i - (st.unfinishedSections.foldl
                (fun s i => Function.update s i (s i + m * p.stretchFactors i))
                st.sectionSizes) i)).sum =
              ((st.unfinishedSections.erase j).map
                (fun i => (p.maxSizes i - st.sectionSizes i) - m * p.stretchFactors i)).sum := by
            apply sum_map_congr_mem
            intro i hi
            rw [hsizes_mem i (List.mem_of_mem_erase hi)]
            ring
          have he2 : (st.unfinishedSections.map
              (fun i => p.maxSizes i - st.sectionSizes i)).sum =
              (p.maxSizes j - st.sectionSizes j) +
              ((st.unfinishedSections.erase j).map
                (fun i => p.maxSizes i - st.sectionSizes i)).sum :=
            sum_map_erase _ _ j hjmem
          have he3 : (st.unfinishedSections.map p.stretchFactors).sum =
              p.stretchFactors j + ((st.unfinishedSections.erase j).map p.stretchFactors).sum :=
            sum_map_erase _ _ j hjmem
          have he4 : ((st.unfinishedSections.erase j).map
              (fun i => (p.maxSizes i - st.sectionSizes i) - m * p.stretchFactors i)).sum =
              ((st.unfinishedSections.erase j).map
                (fun i => p.maxSizes i - st.sectionSizes i)).sum -
              ((st.unfinishedSections.erase j).map
                (fun i => m * p.stretchFactors i)).sum := sum_map_sub _ _ _
          have he5 : ((st.unfinishedSections.erase j).map
              (fun i => m * p.stretchFactors i)).sum =
              m * ((st.unfinishedSections.erase j).map p.stretchFactors).sum :=
            sum_map_mul_left_q _ _ _
          have h6 : st.freeSize ≤ (p.maxSizes j - st.sectionSizes j) +
              ((st.unfinishedSections.erase j).map
                (fun i => p.maxSizes i - st.sectionSizes i)).sum := by
            rw [← he2]
            exact hcapa
          rw [he1, he4, he5, hconsumed, he3]
          linarith [hmulj, h6]
        have hinv' : InnerInv p
            { st with
              sectionSizes := st.unfinishedSections.foldl
                (fun s i => Function.update s i (s i + m * p.stretchFactors i))
                st.sectionSizes
              freeSize := st.freeSize - (st.unfinishedSections.map
                (fun i => m * p.stretchFactors i)).sum
              unfinishedSections := st.unfinishedSections.erase j } :=
          ⟨hnd', hmemn', hbounds', le_of_lt hfree', hcap'⟩
        have hlen' : (st.unfinishedSections.erase j).length ≤ f := by
          have h1 := st.unfinishedSections.length_erase_of_mem hjmem
          have h2 : 0 < st.unfinishedSections.length := List.length_pos.mpr hne
          omega
        obtain ⟨c1, c2, c3, c4, c5⟩ := ih _ hinv' herase hlen'
        refine ⟨c1, c2, c3, ?_, ?_⟩
        · intro i hi
          have hi' : i ∉ st.unfinishedSections.erase j :=
            fun h => hi (List.mem_of_mem_erase h)
          rw [c4 i hi']
          exact hsizes_notmem i hi
        · rw [c5]
          have hsum := updAdd_sum p.sectionCount (fun i => m * p.stretchFactors i)
            st.unfinishedSections hnd hmemn st.sectionSizes
          rw [hsum]
          ring
    · -- all remaining free space is distributed and the loop finishes
      have hstep : innerStep p st =
          { st with
            sectionSizes := st.unfinishedSections.foldl
              (fun s i => Function.update s i
                (s i + st.freeSize / (st.unfinishedSections.map p.stretchFactors).sum *
                  p.stretchFactors i)) st.sectionSizes
            unfinishedSections := [] } := by
        unfold innerStep
        rw [hscan]
        dsimp only
        rw [if_neg hbr]
      rw [hstep, innerLoop_empty p f _ rfl]
      dsimp only
      set c : ℚ := st.freeSize / (st.unfinishedSections.map p.stretchFactors).sum with hcdef
      have hc0 : 0 ≤ c := div_nonneg hfree0 (le_of_lt hσpos)
      have hcle : c ≤ (p.maxSizes j - st.sectionSizes j) / p.stretchFactors j := not_lt.mp hbr
      have hsizes_mem : ∀ i ∈ st.unfinishedSections,
          (st.unfinishedSections.foldl
            (fun s i => Function.update s i (s i + c * p.stretchFactors i))
            st.sectionSizes) i = st.sectionSizes i + c * p.stretchFactors i := by
        intro i hi
        exact updAdd_mem (fun i => c * p.stretchFactors i) _ hnd _ i hi
      have hsizes_notmem : ∀ i, i ∉ st.unfinishedSections →
          (st.unfinishedSections.foldl
            (fun s i => Function.update s i (s i + c * p.stretchFactors i))
            st.sectionSizes) i = st.sectionSizes i := by
        intro i hi
        exact updAdd_notmem (fun i => c * p.stretchFactors i) _ _ i hi
      refine ⟨rfl, rfl, ?_, ?_, ?_⟩
      · intro i hin
        by_cases hi : i ∈ st.unfinishedSections
        · rw [hsizes_mem i hi]
          have hstri := Hstr i hin
          have hcle2 : c ≤ (p.maxSizes i - st.sectionSizes i) / p.stretchFactors i :=
            le_trans hcle (hjmin i hi)
          have h2 : c * p.stretchFactors i ≤ p.maxSizes i - st.sectionSizes i := by
            have := mul_le_mul_of_nonneg_right hcle2 (le_of_lt hstri)
            rw [div_mul_cancel₀ _ (ne_of_gt hstri)] at this
            exact this
          constructor
          · have : 0 ≤ c * p.stretchFactors i := mul_nonneg hc0 (le_of_lt hstri)
            linarith [(hbounds i hin).1]
          · linarith
        · rw [hsizes_notmem i hi]
          exact hbounds i hin
      · intro i hi
        exact hsizes_notmem i hi
      · have hsum := updAdd_sum p.sectionCount (fun i => c * p.stretchFactors i)
          st.unfinishedSections hnd hmemn st.sectionSizes
        rw [hsum, sum_map_mul_left_q, hcdef, div_mul_cancel₀ _ (ne_of_gt hσpos)]


/-- The loop body of the minimum-violation sweep, named for the proofs. -/
def minViolStep (p : SolverParams) (acc : SolverState × Bool) (i : ℕ) : SolverState × Bool :=
  if i ∈ acc.1.minimumLockedSections then acc
  else if acc.1.sectionSizes i < p.minSizes i then
    ({ acc.1 with
        sectionSizes := Function.update acc.1.sectionSizes i (p.minSizes i)
        minimumLockedSections := acc.1.minimumLockedSections ++ [i] }, true)
  else acc

theorem minViolationPass_eq_foldl (p : SolverParams) (st : SolverState) :
    minViolationPass p st = (List.range p.sectionCount).foldl (minViolStep p) (st, false) := rfl

/-- The Boolean test of the sweep relative to a fixed state: not yet locked
and strictly below the minimum. -/
def violCond (p : SolverParams) (st : SolverState) (j : ℕ) : Bool :=
  decide (j ∉ st.minimumLockedSections ∧ st.sectionSizes j < p.minSizes j)

theorem minViol_foldl_spec (p : SolverParams) :
    ∀ (l : List ℕ) (st : SolverState) (b : Bool), l.Nodup →
      (∀ j, (l.foldl (minViolStep p) (st, b)).1.sectionSizes j =
        if j ∈ l ∧ violCond p st j = true then p.minSizes j else st.sectionSizes j) ∧
      (l.foldl (minViolStep p) (st, b)).1.minimumLockedSections =
        st.minimumLockedSections ++ l.filter (violCond p st) ∧
      (l.foldl (minViolStep p) (st, b)).1.unfinishedSections = st.unfinishedSections ∧
      (l.foldl (minViolStep p) (st, b)).1.freeSize = st.freeSize ∧
      (l.foldl (minViolStep p) (st, b)).2 = (b || !(l.filter (violCond p st)).isEmpty) := by
  intro l
  induction l with
  | nil =>
    intro st b hnd
    refine ⟨fun j => by simp, by simp, rfl, rfl, by simp⟩
  | cons a t ih =>
    intro st b hnd
    have hat : a ∉ t := (List.nodup_cons.mp hnd).1
    have htnd : t.Nodup := (List.nodup_cons.mp hnd).2
    rw [List.foldl_cons]
    by_cases hca : violCond p st a = true
    · -- the head section gets clamped and locked
      have hcond : a ∉ st.minimumLockedSections ∧ st.sectionSizes a < p.minSizes a :=
        of_decide_eq_true hca
      have hstepa : minViolStep p (st, b) a =
          ({ st with
              sectionSizes := Function.update st.sectionSizes a (p.minSizes a)
              minimumLockedSections := st.minimumLockedSections ++ [a] }, true) := by
        unfold minViolStep
        dsimp only
        rw [if_neg hcond.1, if_pos hcond.2]
      rw [hstepa]
      obtain ⟨ih1, ih2, ih3, ih4, ih5⟩ := ih
        { st with
          sectionSizes := Function.update st.sectionSizes a (p.minSizes a)
          minimumLockedSections := st.minimumLockedSections ++ [a] } true htnd
      have hcondt : ∀ j ∈ t, violCond p
          { st with
            sectionSizes := Function.update st.sectionSizes a (p.minSizes a)
            minimumLockedSections := st.minimumLockedSections ++ [a] } j = violCond p st j := by
        intro j hj
        have hja : j ≠ a := fun h => hat (h ▸ hj)
        unfold violCond
        dsimp only
        rw [Function.update_noteq hja]
        by_cases hjm : j ∈ st.minimumLockedSections
        · have h2 : j ∈ st.minimumLockedSections ++ [a] := List.mem_append_left _ hjm
          simp [hjm, h2]
        · have h2 : ¬ j ∈ st.minimumLockedSections ++ [a] := by
            intro h
            rcases List.mem_append.mp h with h | h
            · exact hjm h
            · exact hja (by simpa using h)
          simp [hjm, h2]
      refine ⟨?_, ?_, ih3, ih4, ?_⟩
      · intro j
        rw [ih1 j]
        by_cases hjt : j ∈ t
        · have hja : j ≠ a := fun h => hat (h ▸ hjt)
          rw [hcondt j hjt]
          by_cases hcj : violCond p st j = true
          · rw [if_pos ⟨hjt, hcj⟩, if_pos ⟨List.mem_cons_of_mem a hjt, hcj⟩]
          · rw [if_neg (fun h => hcj h.2), if_neg (fun h => hcj h.2)]
            dsimp only
            rw [Function.update_noteq hja]
        · by_cases hja : j = a
          · subst hja
            rw [if_neg (fun h => hat h.1)]
            dsimp only
            rw [Function.update_same, if_pos ⟨List.mem_cons_self j t, hca⟩]
          · rw [if_neg (fun h => hjt h.1)]
            dsimp only
            rw [Function.update_noteq hja,
              if_neg (fun h => (List.mem_cons.mp h.1).elim (fun he => hja he) hjt)]
      · rw [ih2]
        dsimp only
        rw [List.filter_congr hcondt, List.filter_cons_of_pos hca]
        simp [List.append_assoc]
      · rw [ih5, List.filter_cons_of_pos hca]
        simp
    · -- the head section is skipped
      have hstepa : minViolStep p (st, b) a = (st, b) := by
        unfold minViolStep
        dsimp only
        by_cases hm : a ∈ st.minimumLockedSections
        · rw [if_pos hm]
        · rw [if_neg hm, if_neg ?_]
          intro hlt
          exact hca (decide_eq_true ⟨hm, hlt⟩)
      rw [hstepa]
      obtain ⟨ih1, ih2, ih3, ih4, ih5⟩ := ih st b htnd
      refine ⟨?_, ?_, ih3, ih4, ?_⟩
      · intro j
        rw [ih1 j]
        by_cases hjt : j ∈ t
        · by_cases hcj : violCond p st j = true
          · rw [if_pos ⟨hjt, hcj⟩, if_pos ⟨List.mem_cons_of_mem a hjt, hcj⟩]
          · rw [if_neg (fun h => hcj h.2), if_neg (fun h => hcj h.2)]
        · by_cases hja : j = a
          · subst hja
            rw [if_neg (fun h => hjt h.1), if_neg (fun h => hca h.2)]
          · rw [if_neg (fun h => hjt h.1),
              if_neg (fun h => (List.mem_cons.mp h.1).elim (fun he => hja he) hjt)]
      · rw [ih2, List.filter_cons_of_neg (by simpa using hca)]
      · rw [ih5, List.filter_cons_of_neg (by simpa using hca)]

theorem sum_map_lt_of_le_of_mem_lt (l : List ℕ) (f g : ℕ → ℚ)
    (hle : ∀ i ∈ l, f i ≤ g i) (hex : ∃ i ∈ l, f i < g i) :
    (l.map f).sum < (l.map g).sum := by
  induction l with
  | nil => obtain ⟨i, hi, -⟩ := hex; cases hi
  | cons a t ih =>
    simp only [List.map_cons, List.sum_cons]
    obtain ⟨i, hi, hlt⟩ := hex
    rcases List.mem_cons.mp hi with heq | hit
    · have hlt2 : f a < g a := by rw [← heq]; exact hlt
      have hrest := sum_map_le_mem t f g (fun j hj => hle j (List.mem_cons_of_mem a hj))
      linarith
    · have ha := hle a (List.mem_cons_self a t)
      have := ih (fun j hj => hle j (List.mem_cons_of_mem a hj)) ⟨i, hit, hlt⟩
      linarith

/-- Invariant of the outer loop at the head of each iteration: the locked
sections are duplicate-free, in range and pinned at their minimums, the
unfinished pool is exactly the non-locked sections with zero working size,
the free size is the total minus the locked minimums, and the unfinished
maximums can absorb the free size. -/
def OuterInv (p : SolverParams) (st : SolverState) : Prop :=
  st.minimumLockedSections.Nodup ∧
  (∀ i ∈ st.minimumLockedSections, i < p.sectionCount) ∧
  (∀ i ∈ st.minimumLockedSections, st.sectionSizes i = p.minSizes i) ∧
  st.unfinishedSections =
    (List.range p.sectionCount).filter (fun i => decide (¬i ∈ st.minimumLockedSections)) ∧
  (∀ i ∈ st.unfinishedSections, st.sectionSizes i = 0) ∧
  st.freeSize = p.totalSize -
    (((List.range p.sectionCount).filter
      (fun i => decide (i ∈ st.minimumLockedSections))).map p.minSizes).sum ∧
  st.freeSize ≤ (st.unfinishedSections.map p.maxSizes).sum

theorem filter_not_mem_eq (l X : List ℕ) :
    l.filter (fun i => decide (¬i ∈ X)) = l.filter (fun i => !decide (i ∈ X)) := by
  apply List.filter_congr
  intro a _
  simp [decide_not]

theorem mem_filter_not_mem (l X : List ℕ) (j : ℕ) :
    j ∈ l.filter (fun i => decide (¬i ∈ X)) ↔ j ∈ l ∧ ¬j ∈ X := by
  rw [List.mem_filter]
  simp

theorem mem_filter_mem (l X : List ℕ) (j : ℕ) :
    j ∈ l.filter (fun i => decide (i ∈ X)) ↔ j ∈ l ∧ j ∈ X := by
  rw [List.mem_filter]
  simp

/-- Master lemma for the outer loop: under the feasibility and
no-saturation hypotheses, the final working sizes sum exactly to the total
size. -/
theorem outerLoop_spec (p : SolverParams)
    (Hstr : ∀ i, i < p.sectionCount → 0 < p.stretchFactors i)
    (Hmin0 : ∀ i, i < p.sectionCount → 0 ≤ p.minSizes i)
    (Hminmax : ∀ i, i < p.sectionCount → p.minSizes i ≤ p.maxSizes i)
    (Hcap : ∀ i, i < p.sectionCount → p.maxSizes i < 10 ^ 12 * p.stretchFactors i)
    (Hfeas : ((List.range p.sectionCount).map p.minSizes).sum ≤ p.totalSize) :
    ∀ (fuel : ℕ) (st : SolverState), OuterInv p st → st.unfinishedSections ≠ [] →
      p.sectionCount + 1 ≤ fuel + st.minimumLockedSections.length →
      ((List.range p.sectionCount).map (outerLoop p fuel st).sectionSizes).sum =
        p.totalSize := by
  intro fuel
  induction fuel with
  | zero =>
    intro st hinv hne hfuel
    have := nodup_lt_length_le _ _ hinv.1 hinv.2.1
    omega
  | succ f ih =>
    intro st hinv hne hfuel
    obtain ⟨hLnd, hLmem, hLmin, hUeq, hU0, hFeq, hFcap⟩ := hinv
    rw [outerLoop_succ, if_neg hne]
    have hUmem : ∀ i ∈ st.unfinishedSections, i < p.sectionCount := by
      intro i hi
      rw [hUeq] at hi
      exact List.mem_range.mp ((mem_filter_not_mem _ _ i).mp hi).1
    have hUchar : ∀ i, i ∈ st.unfinishedSections ↔
        (i < p.sectionCount ∧ ¬i ∈ st.minimumLockedSections) := by
      intro i
      rw [hUeq, mem_filter_not_mem, List.mem_range]
    have hLnotU : ∀ i ∈ st.minimumLockedSections, ¬i ∈ st.unfinishedSections :=
      fun i hi h2 => ((hUchar i).mp h2).2 hi
    have hUnd : st.unfinishedSections.Nodup := by
      rw [hUeq]
      exact (List.nodup_range _).filter _
    have hinner : InnerInv p st := by
      refine ⟨hUnd, hUmem, ?_, ?_, ?_⟩
      · intro i hin
        by_cases hiL : i ∈ st.minimumLockedSections
        · rw [hLmin i hiL]
          exact ⟨Hmin0 i hin, Hminmax i hin⟩
        · rw [hU0 i ((hUchar i).mpr ⟨hin, hiL⟩)]
          exact ⟨le_refl 0, le_trans (Hmin0 i hin) (Hminmax i hin)⟩
      · rw [hFeq]
        have hpart := sum_map_filter_partition (List.range p.sectionCount)
          (fun i => decide (i ∈ st.minimumLockedSections)) p.minSizes
        have hnn : 0 ≤ (((List.range p.sectionCount).filter
            (fun i => !decide (i ∈ st.minimumLockedSections))).map p.minSizes).sum := by
          apply sum_map_nonneg
          intro i hi
          exact Hmin0 i (List.mem_range.mp (List.mem_filter.mp hi).1)
        linarith
      · have hz : (st.unfinishedSections.map
            (fun i => p.maxSizes i - st.sectionSizes i)).sum =
            (st.unfinishedSections.map p.maxSizes).sum -
            (st.unfinishedSections.map st.sectionSizes).sum := sum_map_sub _ _ _
        have hz2 : (st.unfinishedSections.map st.sectionSizes).sum = 0 := by
          rw [sum_map_congr_mem _ _ (fun _ => 0) hU0]
          simp
        rw [hz, hz2]
        linarith [hFcap]
    have hUlen : st.unfinishedSections.length ≤ p.sectionCount * 2 := by
      have := nodup_lt_length_le st.unfinishedSections p.sectionCount hUnd hUmem
      omega
    obtain ⟨I1, I2, I3, I4, I5⟩ :=
      innerLoop_spec p Hstr Hcap (p.sectionCount * 2) st hinner hne hUlen
    set st1 := innerLoop p (p.sectionCount * 2) st with hst1
    have hS0 : ((List.range p.sectionCount).map st.sectionSizes).sum =
        (((List.range p.sectionCount).filter
          (fun i => decide (i ∈ st.minimumLockedSections))).map p.minSizes).sum := by
      have hpart := sum_map_filter_partition (List.range p.sectionCount)
        (fun i => decide (i ∈ st.minimumLockedSections)) st.sectionSizes
      have h1 : (((List.range p.sectionCount).filter
          (fun i => decide (i ∈ st.minimumLockedSections))).map st.sectionSizes).sum =
          (((List.range p.sectionCount).filter
            (fun i => decide (i ∈ st.minimumLockedSections))).map p.minSizes).sum := by
        apply sum_map_congr_mem
        intro i hi
        exact hLmin i ((mem_filter_mem _ _ i).mp hi).2
      have h2 : (((List.range p.sectionCount).filter
          (fun i => !decide (i ∈ st.minimumLockedSections))).map st.sectionSizes).sum = 0 := by
        have hall : ∀ i ∈ (List.range p.sectionCount).filter
            (fun i => !decide (i ∈ st.minimumLockedSections)), st.sectionSizes i = 0 := by
          intro i hi
          have hm := List.mem_filter.mp hi
          have hnL : ¬i ∈ st.minimumLockedSections := by
            have := hm.2
            simpa using this
          exact hU0 i ((hUchar i).mpr ⟨List.mem_range.mp hm.1, hnL⟩)
        rw [sum_map_congr_mem _ _ (fun _ => 0) hall]
        simp
      linarith
    have hSum1 : ((List.range p.sectionCount).map st1.sectionSizes).sum = p.totalSize := by
      rw [I5, hS0, hFeq]
      ring
    set chk := (List.range p.sectionCount).foldl (minViolStep p) (st1, false) with hchk
    obtain ⟨P1, P2, P3, P4, P5⟩ :=
      minViol_foldl_spec p (List.range p.sectionCount) st1 false (List.nodup_range _)
    simp only [← hchk] at P1 P2 P3 P4 P5
    have hbody : outerBody p st = if chk.2 then refillUnfinished p chk.1 else chk.1 := by
      unfold outerBody
      rw [minViolationPass_eq_foldl, ← hst1, ← hchk]
    rw [hbody]
    by_cases hflag : ((List.range p.sectionCount).filter (violCond p st1)).isEmpty = true
    · -- no violation: the sweep kept everything and the loop is done
      have hc2 : chk.2 = false := by
        rw [P5, hflag]
        rfl
      rw [hc2]
      simp only [Bool.false_eq_true, if_false]
      have hU2 : chk.1.unfinishedSections = [] := by rw [P3, I1]
      rw [outerLoop_empty p f _ hU2]
      have hnoviol : ∀ a ∈ List.range p.sectionCount, ¬violCond p st1 a = true := by
        have : (List.range p.sectionCount).filter (violCond p st1) = [] := by
          rwa [← List.isEmpty_iff]
        intro a ha hv
        have : a ∈ (List.range p.sectionCount).filter (violCond p st1) :=
          List.mem_filter.mpr ⟨ha, hv⟩
        rw [‹(List.range p.sectionCount).filter (violCond p st1) = []›] at this
        cases this
      have : ∀ j ∈ List.range p.sectionCount, chk.1.sectionSizes j = st1.sectionSizes j := by
        intro j hj
        rw [P1 j, if_neg (fun h => hnoviol j hj h.2)]
      rw [sum_map_congr_mem _ _ _ this]
      exact hSum1
    · -- violation: refill and recurse with a strictly larger locked set
      have hfilne : (List.range p.sectionCount).filter (violCond p st1) ≠ [] := by
        intro h
        rw [h] at hflag
        exact hflag rfl
      have hie : ((List.range p.sectionCount).filter (violCond p st1)).isEmpty = false := by
        cases hie2 : ((List.range p.sectionCount).filter (violCond p st1)).isEmpty
        · rfl
        · exact absurd hie2 hflag
      have hc2 : chk.2 = true := by
        rw [P5, hie]
        rfl
      rw [hc2, if_pos rfl]
      have hL2 : chk.1.minimumLockedSections =
          st.minimumLockedSections ++ (List.range p.sectionCount).filter (violCond p st1) := by
        rw [P2, I2]
      have hviol_mem : ∀ j ∈ (List.range p.sectionCount).filter (violCond p st1),
          j < p.sectionCount ∧ ¬j ∈ st.minimumLockedSections ∧
            st1.sectionSizes j < p.minSizes j := by
        intro j hj
        have hm := List.mem_filter.mp hj
        have hc := of_decide_eq_true hm.2
        rw [I2] at hc
        exact ⟨List.mem_range.mp hm.1, hc.1, hc.2⟩
      have hsw_ge : ∀ j ∈ List.range p.sectionCount,
          st1.sectionSizes j ≤ chk.1.sectionSizes j := by
        intro j hj
        rw [P1 j]
        by_cases hcj : j ∈ List.range p.sectionCount ∧ violCond p st1 j = true
        · rw [if_pos hcj]
          exact le_of_lt (of_decide_eq_true hcj.2).2
        · rw [if_neg hcj]
      have htot_le : p.totalSize ≤
          ((List.range p.sectionCount).map chk.1.sectionSizes).sum := by
        rw [← hSum1]
        exact sum_map_le_mem _ _ _ hsw_ge
      have hLmin2 : ∀ i ∈ chk.1.minimumLockedSections,
          chk.1.sectionSizes i = p.minSizes i := by
        intro i hi
        rw [hL2] at hi
        rcases List.mem_append.mp hi with hiL | hiN
        · rw [P1 i]
          have hnv : ¬(i ∈ List.range p.sectionCount ∧ violCond p st1 i = true) := by
            intro h
            have hc := of_decide_eq_true h.2
            rw [I2] at hc
            exact hc.1 hiL
          rw [if_neg hnv, I4 i (hLnotU i hiL), hLmin i hiL]
        · rw [P1 i, if_pos ⟨List.mem_range.mpr (hviol_mem i hiN).1,
            (List.mem_filter.mp hiN).2⟩]
      have hLmem2 : ∀ i ∈ chk.1.minimumLockedSections, i < p.sectionCount := by
        intro i hi
        rw [hL2] at hi
        rcases List.mem_append.mp hi with hiL | hiN
        · exact hLmem i hiL
        · exact (hviol_mem i hiN).1
      have hLnd2 : chk.1.minimumLockedSections.Nodup := by
        rw [hL2]
        refine List.Nodup.append hLnd ((List.nodup_range _).filter _) ?_
        intro a haL haN
        exact (hviol_mem a haN).2.1 haL
      have hU2e : chk.1.unfinishedSections = [] := by rw [P3, I1]
      have hU3 : (refillUnfinished p chk.1).unfinishedSections =
          (List.range p.sectionCount).filter
            (fun i => decide (¬i ∈ chk.1.minimumLockedSections)) := by
        unfold refillUnfinished
        dsimp only
        rw [hU2e, List.nil_append]
      have hL3 : (refillUnfinished p chk.1).minimumLockedSections =
          chk.1.minimumLockedSections := rfl
      have hF3 : (refillUnfinished p chk.1).freeSize = p.totalSize -
          (((List.range p.sectionCount).filter
            (fun i => decide (i ∈ chk.1.minimumLockedSections))).map
              chk.1.sectionSizes).sum := rfl
      have hS3 : (refillUnfinished p chk.1).sectionSizes =
          ((List.range p.sectionCount).filter
            (fun i => decide (¬i ∈ chk.1.minimumLockedSections))).foldl
            (fun s i => Function.update s i 0) chk.1.sectionSizes := by
        unfold refillUnfinished
        dsimp only
        rw [hU2e, List.nil_append]
      have hS3mem : ∀ j, j ∈ (List.range p.sectionCount).filter
          (fun i => decide (¬i ∈ chk.1.minimumLockedSections)) →
          (refillUnfinished p chk.1).sectionSizes j = 0 := by
        intro j hj
        rw [hS3]
        exact updZero_mem _ _ j hj
      have hS3not : ∀ j, ¬j ∈ (List.range p.sectionCount).filter
          (fun i => decide (¬i ∈ chk.1.minimumLockedSections)) →
          (refillUnfinished p chk.1).sectionSizes j = chk.1.sectionSizes j := by
        intro j hj
        rw [hS3]
        exact updZero_notmem _ _ j hj
      have hinv3 : OuterInv p (refillUnfinished p chk.1) := by
        refine ⟨?_, ?_, ?_, ?_, ?_, ?_, ?_⟩
        · rw [hL3]
          exact hLnd2
        · rw [hL3]
          exact hLmem2
        · rw [hL3]
          intro i hi
          have hnotU : ¬i ∈ (List.range p.sectionCount).filter
              (fun i => decide (¬i ∈ chk.1.minimumLockedSections)) := by
            intro h
            exact ((mem_filter_not_mem _ _ i).mp h).2 hi
          rw [hS3not i hnotU]
          exact hLmin2 i hi
        · rw [hU3, hL3]
        · intro i hi
          rw [hU3] at hi
          exact hS3mem i hi
        · rw [hF3, hL3]
          have hcg : (((List.range p.sectionCount).filter
              (fun i => decide (i ∈ chk.1.minimumLockedSections))).map
                chk.1.sectionSizes).sum =
              (((List.range p.sectionCount).filter
                (fun i => decide (i ∈ chk.1.minimumLockedSections))).map p.minSizes).sum := by
            apply sum_map_congr_mem
            intro i hi
            exact hLmin2 i ((mem_filter_mem _ _ i).mp hi).2
          rw [hcg]
        · rw [hF3, hU3]
          have hpart := sum_map_filter_partition (List.range p.sectionCount)
            (fun i => decide (i ∈ chk.1.minimumLockedSections)) chk.1.sectionSizes
          have hmax : (((List.range p.sectionCount).filter
              (fun i => !decide (i ∈ chk.1.minimumLockedSections))).map
                chk.1.sectionSizes).sum ≤
              (((List.range p.sectionCount).filter
                (fun i => !decide (i ∈ chk.1.minimumLockedSections))).map p.maxSizes).sum := by
            apply sum_map_le_mem
            intro j hj
            have hm := List.mem_filter.mp hj
            have hjn := List.mem_range.mp hm.1
            have hjnL : ¬j ∈ chk.1.minimumLockedSections := by
              have := hm.2
              simpa using this
            rw [P1 j]
            have hnv : ¬(j ∈ List.range p.sectionCount ∧ violCond p st1 j = true) := by
              intro h
              apply hjnL
              rw [hL2]
              exact List.mem_append_right _ (List.mem_filter.mpr ⟨h.1, h.2⟩)
            rw [if_neg hnv]
            exact (I3 j hjn).2
          rw [filter_not_mem_eq]
          linarith
      have hne3 : (refillUnfinished p chk.1).unfinishedSections ≠ [] := by
        rw [hU3]
        intro hempty
        have hallL : ∀ j ∈ List.range p.sectionCount, j ∈ chk.1.minimumLockedSections := by
          intro j hj
          by_contra hnj
          have hjf : j ∈ (List.range p.sectionCount).filter
              (fun i => decide (¬i ∈ chk.1.minimumLockedSections)) :=
            (mem_filter_not_mem _ _ j).mpr ⟨hj, hnj⟩
          rw [hempty] at hjf
          cases hjf
        have hlt : ((List.range p.sectionCount).map st1.sectionSizes).sum <
            ((List.range p.sectionCount).map p.minSizes).sum := by
          apply sum_map_lt_of_le_of_mem_lt
          · intro i hi
            have hiL := hallL i hi
            rw [hL2] at hiL
            rcases List.mem_append.mp hiL with h | h
            · rw [I4 i (hLnotU i h), hLmin i h]
            · exact le_of_lt (hviol_mem i h).2.2
          · obtain ⟨j, hjN⟩ := List.exists_mem_of_ne_nil _ hfilne
            exact ⟨j, List.mem_range.mpr (hviol_mem j hjN).1, (hviol_mem j hjN).2.2⟩
        rw [hSum1] at hlt
        linarith [Hfeas]
      have hlen3 : p.sectionCount + 1 ≤
          f + (refillUnfinished p chk.1).minimumLockedSections.length := by
        rw [hL3, hL2, List.length_append]
        have hpos := List.length_pos.mpr hfilne
        omega
      exact ih (refillUnfinished p chk.1) hinv3 hne3 hlen3

theorem solveSections_sum (p : SolverParams)
    (Hn : 0 < p.sectionCount)
    (Hstr : ∀ i, i < p.sectionCount → 0 < p.stretchFactors i)
    (Hmin0 : ∀ i, i < p.sectionCount → 0 ≤ p.minSizes i)
    (Hminmax : ∀ i, i < p.sectionCount → p.minSizes i ≤ p.maxSizes i)
    (Hcap : ∀ i, i < p.sectionCount → p.maxSizes i < 10 ^ 12 * p.stretchFactors i)
    (Hfeas : ((List.range p.sectionCount).map p.minSizes).sum ≤ p.totalSize)
    (Hmax : p.totalSize ≤ ((List.range p.sectionCount).map p.maxSizes).sum) :
    ((List.range p.sectionCount).map (solveSections p).sectionSizes).sum = p.totalSize := by
  have hs : solveSections p = outerLoop p (p.sectionCount * 2)
      { sectionSizes := fun _ => 0
        unfinishedSections := List.range p.sectionCount
        minimumLockedSections := []
        freeSize := p.totalSize } := by
    unfold solveSections
    dsimp only
    rw [if_neg (not_lt.mpr Hfeas)]
  rw [hs]
  have hinv : OuterInv p
      { sectionSizes := fun _ => 0
        unfinishedSections := List.range p.sectionCount
        minimumLockedSections := []
        freeSize := p.totalSize } := by
    refine ⟨List.nodup_nil, ?_, ?_, ?_, ?_, ?_, ?_⟩
    · intro i hi
      cases hi
    · intro i hi
      cases hi
    · dsimp only
      symm
      apply List.filter_eq_self.mpr
      intro a _
      simp
    · intro i _
      rfl
    · dsimp only
      have hnil : (List.range p.sectionCount).filter
          (fun i => decide (i ∈ ([] : List ℕ))) = [] := by
        apply List.filter_eq_nil.mpr
        intro a _
        simp
      rw [hnil]
      simp
    · dsimp only
      exact Hmax
  apply outerLoop_spec p Hstr Hmin0 Hminmax Hcap Hfeas (p.sectionCount * 2) _ hinv
  · dsimp only
    intro h
    have := List.range_eq_nil.mp h
    omega
  · dsimp only [List.length_nil]
    omega

theorem qRound_err (x : ℚ) : |((qRound x : ℤ) : ℚ) - x| ≤ 1 / 2 := by
  rw [abs_le]
  unfold qRound
  by_cases h : 0 ≤ x
  · rw [if_pos h]
    have h1 := Int.floor_le (x + 1 / 2)
    have h2 := Int.lt_floor_add_one (x + 1 / 2)
    constructor <;> push_cast <;> linarith
  · rw [if_neg h]
    have h1 := Int.le_ceil (x - 1 / 2)
    have h2 := Int.ceil_lt_add_one (x - 1 / 2)
    constructor <;> push_cast <;> linarith

theorem sum_qRound_err (l : List ℕ) (s : ℕ → ℚ) :
    |(((l.map (fun i => qRound (s i))).sum : ℤ) : ℚ) - (l.map s).sum| ≤
      (l.length : ℚ) / 2 := by
  induction l with
  | nil => simp
  | cons a t ih =>
    simp only [List.map_cons, List.sum_cons, List.length_cons]
    obtain ⟨ha1, ha2⟩ := abs_le.mp (qRound_err (s a))
    obtain ⟨ht1, ht2⟩ := abs_le.mp ih
    rw [abs_le]
    push_cast at ha1 ha2 ht1 ht2 ⊢
    constructor <;> linarith

/-- Claim C2, amended: `getSectionSizes` returns sizes summing to
`totalSize` up to the accumulated rounding error of at most half a pixel
per section — `|sum - totalSize| ≤ sectionCount/2` — provided, beyond the
claim's own hypotheses (positive stretch factors and
`0 ≤ minSize ≤ maxSize` per section with the minimums jointly feasible,
`sum(min) ≤ totalSize`), that the maximums can absorb the total
(`totalSize ≤ sum(max)`) and no section's maximum reaches `1e12` times its
stretch factor; without `totalSize ≤ sum(max)` the sizes cap out at the
maximums and the sum falls short of `totalSize` by an arbitrary amount. -/
theorem getSectionSizes_sum_bounded
    (maxSizes minSizes : List ℤ) (stretchFactors : List ℚ) (totalSize : ℤ)
    (hlen1 : maxSizes.length = minSizes.length)
    (hlen2 : minSizes.length = stretchFactors.length)
    (hne : stretchFactors ≠ [])
    (hstr : ∀ i, i < stretchFactors.length → 0 < stretchFactors.getD i 0)
    (hmin0 : ∀ i, i < stretchFactors.length → 0 ≤ minSizes.getD i 0)
    (hminmax : ∀ i, i < stretchFactors.length → minSizes.getD i 0 ≤ maxSizes.getD i 0)
    (hcap : ∀ i, i < stretchFactors.length →
      ((maxSizes.getD i 0 : ℤ) : ℚ) < 10 ^ 12 * stretchFactors.getD i 0)
    (hfeas : ((List.range stretchFactors.length).map
      (fun i => ((minSizes.getD i 0 : ℤ) : ℚ))).sum ≤ (totalSize : ℚ))
    (hmax : (totalSize : ℚ) ≤ ((List.range stretchFactors.length).map
      (fun i => ((maxSizes.getD i 0 : ℤ) : ℚ))).sum) :
    |(((getSectionSizes maxSizes minSizes stretchFactors totalSize).sum : ℤ) : ℚ) -
        (totalSize : ℚ)| ≤ (stretchFactors.length : ℚ) / 2 := by
  obtain ⟨p, hp⟩ : ∃ p : SolverParams, p =
      { sectionCount := stretchFactors.length
        maxSizes := fun i => ((maxSizes.getD i 0 : ℤ) : ℚ)
        minSizes := fun i => ((minSizes.getD i 0 : ℤ) : ℚ)
        stretchFactors := fun i => stretchFactors.getD i 0
        totalSize := (totalSize : ℚ) } := ⟨_, rfl⟩
  have hguard : ¬(maxSizes.length ≠ minSizes.length ∨
      minSizes.length ≠ stretchFactors.length) := by
    push_neg
    exact ⟨hlen1, hlen2⟩
  have hg : getSectionSizes maxSizes minSizes stretchFactors totalSize =
      (List.range p.sectionCount).map
        (fun i => qRound ((solveSections p).sectionSizes i)) := by
    unfold getSectionSizes
    rw [if_neg hguard, if_neg hne, ← hp]
  rw [hg]
  have hn : stretchFactors.length = p.sectionCount := by rw [hp]
  rw [hn]
  have hsolve : ((List.range p.sectionCount).map (solveSections p).sectionSizes).sum =
      p.totalSize := by
    apply solveSections_sum
    · rw [hp]
      exact List.length_pos.mpr hne
    · rw [hp]
      dsimp only
      exact hstr
    · rw [hp]
      dsimp only
      intro i hi
      exact_mod_cast hmin0 i hi
    · rw [hp]
      dsimp only
      intro i hi
      exact_mod_cast hminmax i hi
    · rw [hp]
      dsimp only
      exact hcap
    · rw [hp]
      dsimp only
      exact hfeas
    · rw [hp]
      dsimp only
      exact hmax
  have herr := sum_qRound_err (List.range p.sectionCount) (solveSections p).sectionSizes
  rw [hsolve, List.length_range] at herr
  have ht : p.totalSize = (totalSize : ℚ) := by rw [hp]
  rw [ht] at herr
  exact herr

/-- Witness for the amended claim C2 at a concrete input: one section with
minSize 0, maxSize 100, stretch factor 1 and totalSize 60 — the hypotheses
hold and the returned sum is within half a pixel of 60. -/
theorem getSectionSizes_sum_bounded_w :
    |(((getSectionSizes [100] [0] [(1 : ℚ)] 60).sum : ℤ) : ℚ) - ((60 : ℤ) : ℚ)| ≤
      (([(1 : ℚ)].length : ℚ)) / 2 := by
  apply getSectionSizes_sum_bounded [100] [0] [(1 : ℚ)] 60 rfl rfl
  · intro h
    cases h
  · intro i hi
    obtain rfl : i = 0 := Nat.lt_one_iff.mp (by simpa using hi)
    norm_num [List.getD]
  · intro i hi
    obtain rfl : i = 0 := Nat.lt_one_iff.mp (by simpa using hi)
    decide
  · intro i hi
    obtain rfl : i = 0 := Nat.lt_one_iff.mp (by simpa using hi)
    decide
  · intro i hi
    obtain rfl : i = 0 := Nat.lt_one_iff.mp (by simpa using hi)
    norm_num [List.getD]
  · norm_num [List.range_succ, List.getD]
  · norm_num [List.range_succ, List.getD]

end QCP
